import Mathlib

/-! # mc: a shallow embedding of the listing, range-read and URL-classification code

The development follows the sources of the repository:

* `pkg/client/fs/fs_windows.go`: `getObjectMetadata`, `GetPartial`,
  `GetObjectMetadata`, `List` and `Stat` of the filesystem client (namespace
  `Mc.Fs`);
* `ls.go`: `parseContent` and `doList` (namespace `Mc.Ls`);
* `share-upload-main.go`: `doShareUploadURL` (namespace `Mc.Share`);
* the copy-URL classifier `guessCopyURLType`, whose source is not part of the
  tree (only `cp_mirror_test.go` calls it) and which is therefore modelled from
  the specification (namespace `Mc.Cp`).

Go strings are lists of characters, `int64` values are integers reduced with
`wrapInt64`, and every library call that touches the outside world (`os.Stat`,
`os.Open`, the client's `Stat` and `List`) is recorded in an explicit trace.
-/

namespace Mc

/-! ## Machine integers -/

/-- Two's-complement reduction of a mathematical integer to Go's `int64`. -/
def wrapInt64 (x : Int) : Int := (x + 2 ^ 63) % 2 ^ 64 - 2 ^ 63

/-- The constant `math.MaxInt64`. -/
def maxInt64 : Int := 2 ^ 63 - 1

/-- The constant `math.MinInt64`. -/
def minInt64 : Int := -(2 ^ 63)

/-- The values an `int64` variable can hold. -/
def isInt64 (x : Int) : Prop := minInt64 ≤ x ∧ x ≤ maxInt64

instance (x : Int) : Decidable (isInt64 x) := by
  unfold isInt64; exact inferInstance

/-! ## Go strings -/

/-- A Go string, as the list of its characters. -/
abbrev GoString := List Char

/-- The function `strings.HasPrefix`. -/
def HasPrefix (s pre : GoString) : Bool := decide (pre <+: s)

/-- The function `strings.HasSuffix`. -/
def HasSuffix (s suf : GoString) : Bool := decide (suf <:+ s)

/-- The function `strings.TrimPrefix`: `s` without the leading `pre`, or `s`
itself when it does not start with `pre`. -/
def TrimPrefix (s pre : GoString) : GoString :=
  if HasPrefix s pre then s.drop pre.length else s

/-- The function `strings.TrimSuffix`: `s` without the trailing `suf` (removed
once), or `s` itself when it does not end with `suf`. -/
def TrimSuffix (s suf : GoString) : GoString :=
  if HasSuffix s suf then s.take (s.length - suf.length) else s

/-- The call `strings.Replace(s, old, new, -1)` for one-character `old` and
`new`: every occurrence is replaced. -/
def ReplaceChar (s : GoString) (old new : Char) : GoString :=
  s.map (fun c => if c = old then new else c)

/-! ## Errors of package `os` -/

/-- The errors package `os` reports, as far as the client tells them apart. -/
inductive OsError where
  | notExist
  | permission
  | other (msg : GoString)
  deriving DecidableEq, Repr

/-- The predicate `os.IsNotExist` on a non-nil error. -/
def osIsNotExist : OsError → Bool
  | .notExist => true
  | _ => false

/-- The predicate `os.IsPermission` on a non-nil error. -/
def osIsPermission : OsError → Bool
  | .permission => true
  | _ => false

/-! ## The filesystem client (`pkg/client/fs/fs_windows.go`) -/

namespace Fs

/-- The error values the client creates or passes on. -/
inductive GoError where
  /-- The value `client.InvalidRange{Offset: offset}`. -/
  | InvalidRange (Offset : Int)
  /-- The value `FileNotFound{path: path}`. -/
  | FileNotFound (path : GoString)
  /-- The value `FileISDir{path: path}`. -/
  | FileISDir (path : GoString)
  /-- The value `FileNotDir{path: path}`. -/
  | FileNotDir (path : GoString)
  /-- An error of package `os`, passed on. -/
  | os (e : OsError)
  /-- The value `io.EOF`, reported by `io.CopyN` on a short read. -/
  | EOF
  deriving DecidableEq, Repr

/-- An `iodine.Error`: the embedded error and the number of stack entries
recorded for it. -/
structure IodineError where
  EmbeddedError : GoError
  Stack : Nat
  deriving DecidableEq, Repr

/-- The call `iodine.New(err, nil)` on a plain error: it is embedded with one
stack entry. -/
def iodineNew (err : GoError) : IodineError := { EmbeddedError := err, Stack := 1 }

/-- The call `iodine.New(err, nil)` on an error that already is an
`iodine.Error`: one more stack entry is appended. -/
def iodineAgain (err : IodineError) : IodineError := { err with Stack := err.Stack + 1 }

/-- The part of `os.FileInfo` the client reads. -/
structure FileInfo where
  Name : GoString
  Size : Int
  IsDir : Bool
  ModTime : Int
  deriving DecidableEq, Repr

/-- The host the client runs on: `filepath.Clean`, and what `os.Stat` and
`os.Open` answer for a path. An opened file is the list of bytes it yields
from position zero to end of file. -/
structure Host where
  Clean : GoString → GoString
  Stat : GoString → Except OsError FileInfo
  Open : GoString → Except OsError (List UInt8)

/-- The system calls a client method performs, in order. -/
inductive Syscall where
  | stat (path : GoString)
  | fopen (path : GoString)
  | read (count : Int)
  deriving DecidableEq, Repr

/-- The type `fsClient`. -/
structure fsClient where
  path : GoString
  deriving DecidableEq, Repr

/-- The result of a client method together with the system calls it made. -/
structure Traced (α : Type) where
  calls : List Syscall
  result : Except IodineError α

/-- The method `fsClient.getObjectMetadata`: stat of the cleaned path; a
missing path is `FileNotFound`, another stat failure is passed on, a
directory is `FileISDir`. -/
def getObjectMetadata (h : Host) (f : fsClient) : Traced FileInfo :=
  let calls := [Syscall.stat (h.Clean f.path)]
  match h.Stat (h.Clean f.path) with
  | .error err =>
    if osIsNotExist err then
      { calls := calls, result := .error (iodineNew (.FileNotFound f.path)) }
    else
      { calls := calls, result := .error (iodineNew (.os err)) }
  | .ok st =>
    if st.IsDir then
      { calls := calls, result := .error (iodineNew (.FileISDir f.path)) }
    else
      { calls := calls, result := .ok st }

/-- What `GetPartial` returns on success: the open body, given by the bytes
it yields until end of file, and the reported size. -/
structure PartialObject where
  body : List UInt8
  size : Int
  deriving DecidableEq, Repr

/-- The call `io.CopyN(ioutil.Discard, body, n)` for `0 ≤ n`: it reads `n`
bytes off the body, and fails with `io.EOF` when the body is shorter. -/
def copyNDiscard (body : List UInt8) (n : Int) : Except GoError (List UInt8) :=
  if n.toNat ≤ body.length then .ok (body.drop n.toNat) else .error .EOF

/-- The method `fsClient.GetPartial`. The range test is the source's
`offset > st.Size() || (offset+length-1) > st.Size()`, with the sum and the
difference computed in `int64`. -/
def GetPartial (h : Host) (f : fsClient) (offset length : Int) : Traced PartialObject :=
  if offset < 0 then
    { calls := [], result := .error (iodineNew (.InvalidRange offset)) }
  else
    let md := getObjectMetadata h f
    match md.result with
    | .error err => { calls := md.calls, result := .error (iodineAgain err) }
    | .ok st =>
      let calls := md.calls ++ [Syscall.fopen f.path]
      match h.Open f.path with
      | .error err => { calls := calls, result := .error (iodineNew (.os err)) }
      | .ok body =>
        if offset > st.Size ∨ wrapInt64 (wrapInt64 (offset + length) - 1) > st.Size then
          { calls := calls, result := .error (iodineNew (.InvalidRange offset)) }
        else
          match copyNDiscard body offset with
          | .error err =>
            { calls := calls ++ [Syscall.read offset], result := .error (iodineNew err) }
          | .ok rest =>
            { calls := calls ++ [Syscall.read offset],
              result := .ok { body := rest, size := length } }

/-- A host with one readable regular file `path` holding `data`; every other
path does not exist. -/
def singleFileHost (path : GoString) (data : List UInt8) : Host :=
  { Clean := fun p => p
    Stat := fun p =>
      if p = path then
        .ok { Name := path, Size := data.length, IsDir := false, ModTime := 0 }
      else .error .notExist
    Open := fun p => if p = path then .ok data else .error .notExist }

/-- Ten bytes, the contents of the file of the examples. -/
def tenBytes : List UInt8 := [0, 1, 2, 3, 4, 5, 6, 7, 8, 9]

/-- The host state "`f.path` is an existing regular file holding `data`":
the stat of the cleaned path reports a non-directory of the size of `data`,
and opening the path yields `data`. -/
def RegularFile (h : Host) (f : fsClient) (data : List UInt8) : Prop :=
  (∃ st, h.Stat (h.Clean f.path) = .ok st ∧ st.IsDir = false ∧ st.Size = data.length) ∧
  h.Open f.path = .ok data ∧ (data.length : Int) ≤ maxInt64

end Fs

/-! ## Lexical path functions (`path/filepath`, slash-separated hosts) -/

namespace Filepath

/-- The components of a path: the pieces between its separators `/`. -/
def splitSlash : GoString → List GoString
  | [] => [[]]
  | c :: cs =>
    if c = '/' then [] :: splitSlash cs
    else
      match splitSlash cs with
      | [] => [[c]]
      | comp :: comps => (c :: comp) :: comps

/-- The components joined with one separator between neighbours. -/
def joinSlash : List GoString → GoString
  | [] => []
  | [comp] => comp
  | comp :: next :: comps => comp ++ '/' :: joinSlash (next :: comps)

/-- The path element `..`. -/
def dotdot : GoString := ['.', '.']

/-- One round of the loop of `filepath.Clean`, on the components written so
far: empty and `.` elements are dropped; `..` removes the last written
element when that is not itself `..`, is dropped at the top of a rooted path,
and is written otherwise; any other element is written. -/
def cleanStep (rooted : Bool) (out : List GoString) (comp : GoString) : List GoString :=
  if comp = [] ∨ comp = ['.'] then out
  else if comp = dotdot then
    match out.getLast? with
    | some last =>
      if last = dotdot then (if rooted then out else out ++ [comp]) else out.dropLast
    | none => if rooted then out else out ++ [comp]
  else out ++ [comp]

/-- The function `filepath.Clean` for the separator `/`: the shortest path
equivalent to `path` by purely lexical processing; `.` for an empty result. -/
def Clean (path : GoString) : GoString :=
  if path = [] then ['.']
  else
    let rooted := decide (path.head? = some '/')
    let out := (splitSlash path).foldl (cleanStep rooted) []
    if rooted then '/' :: joinSlash out
    else if out = [] then ['.'] else joinSlash out

/-- The call `filepath.Join(a, b)` for the separator `/`: the elements from
the first non-empty one on are joined with `/` and the result is cleaned; two
empty elements give the empty string. -/
def Join (a b : GoString) : GoString :=
  if a ≠ [] then Clean (a ++ '/' :: b)
  else if b ≠ [] then Clean b
  else []

/-- A path element that `Clean` keeps as it is: not empty, without a
separator, and neither `.` nor `..`. -/
def PlainElem (comp : GoString) : Prop :=
  comp ≠ [] ∧ '/' ∉ comp ∧ comp ≠ ['.'] ∧ comp ≠ dotdot

instance (comp : GoString) : Decidable (PlainElem comp) := by
  unfold PlainElem; exact inferInstance

/-- A name in clean form: plain elements joined with `/`, below the root
`/` when `rooted`. -/
def cleanName (rooted : Bool) (elems : List GoString) : GoString :=
  (if rooted then ['/'] else []) ++ joinSlash elems

end Filepath

/-! ## Listing (`ls.go`) -/

namespace Ls

/-- The type `os.FileMode`: a word of mode bits. -/
structure FileMode where
  bits : Nat
  deriving DecidableEq, Repr

/-- The bit `os.ModeDir`. -/
def ModeDir : FileMode := ⟨2 ^ 31⟩

/-- The bit `os.ModeSymlink`. -/
def ModeSymlink : FileMode := ⟨2 ^ 27⟩

/-- The method `FileMode.IsDir`: the directory bit is set. -/
def FileMode.IsDir (m : FileMode) : Bool := m.bits &&& ModeDir.bits != 0

/-- The test `m&os.ModeSymlink == os.ModeSymlink`. -/
def FileMode.IsSymlink (m : FileMode) : Bool := m.bits &&& ModeSymlink.bits == ModeSymlink.bits

/-- The Go errors a listing can carry, as far as `doList` tells them apart. -/
inductive GoError where
  /-- The value `client.BrokenSymlink`. -/
  | BrokenSymlink (Path : GoString)
  /-- The value `client.TooManyLevelsSymlink`. -/
  | TooManyLevelsSymlink (Path : GoString)
  /-- An error of package `os`. -/
  | os (e : OsError)
  /-- Any other error, by its message. -/
  | other (msg : GoString)
  deriving DecidableEq, Repr

/-- The call `os.IsNotExist(err)` on a listing error. -/
def GoError.IsNotExist : GoError → Bool
  | .os e => osIsNotExist e
  | _ => false

/-- The call `os.IsPermission(err)` on a listing error. -/
def GoError.IsPermission : GoError → Bool
  | .os e => osIsPermission e
  | _ => false

/-- A `probe.Error`: the Go error it wraps and one trace point per call of
`Trace`, each holding the fields passed to that call. -/
structure ProbeError where
  Cause : GoError
  CallTrace : List (List GoString)
  deriving DecidableEq, Repr

/-- The method `probe.Error.Trace(fields...)`: the same error with one more
trace point. -/
def ProbeError.Trace (e : ProbeError) (fields : List GoString) : ProbeError :=
  { e with CallTrace := e.CallTrace ++ [fields] }

/-- The method `probe.Error.ToGoError`. -/
def ProbeError.ToGoError (e : ProbeError) : GoError := e.Cause

/-- The type `client.Content`. Times are instants, so that `Time.Local()`
(the same instant in another location) is the identity. -/
structure Content where
  Name : GoString
  Time : Int
  Size : Int
  /-- The field `Type`. -/
  Typ : FileMode
  deriving DecidableEq, Repr

/-- The type `ContentMessage`. -/
structure ContentMessage where
  Filetype : GoString
  Time : Int
  Size : Int
  Name : GoString
  deriving DecidableEq, Repr

/-- The path separator of the host, as `parseContent` writes it. -/
def separator (windows : Bool) : Char := if windows then '\\' else '/'

/-- The predicate `os.IsPathSeparator`: `/` everywhere, and `\` as well on
Windows. -/
def IsSeparator (windows : Bool) (ch : Char) : Bool :=
  ch = '/' || (windows && ch = '\\')

/-- A name as the host writes it: on Windows every `/` is written `\`. -/
def hostName (windows : Bool) (name : GoString) : GoString :=
  if windows then name.map (fun ch => if ch = '/' then '\\' else ch) else name

/-- The function `parseContent`; `windows` is `runtime.GOOS == "windows"`. -/
def parseContent (windows : Bool) (c : Content) : ContentMessage :=
  let filetype : GoString := if c.Typ.IsDir then "folder".toList else "file".toList
  let trimmed : GoString :=
    if windows then TrimSuffix (ReplaceChar c.Name '/' '\\') ['\\']
    else TrimSuffix c.Name ['/']
  let name : GoString :=
    if c.Typ.IsDir then
      if windows then trimmed ++ ['\\'] else trimmed ++ ['/']
    else trimmed
  { Filetype := filetype, Time := c.Time, Size := c.Size, Name := name }

/-- The type `client.ContentOnChannel`: both fields are pointers and may be
nil. -/
structure ContentOnChannel where
  Content : Option Content
  Err : Option ProbeError
  deriving DecidableEq, Repr

/-- The part of `client.Client` that `doList` uses. `List recursive` is the
finite sequence of elements the returned channel delivers. -/
structure Client where
  URL : GoString
  Stat : Except ProbeError Content
  List : Bool → List ContentOnChannel

/-- The host `doList` runs on: whether `runtime.GOOS` is `"windows"`, and the
host's `filepath.Join` on two elements. -/
structure Platform where
  windows : Bool
  Join : GoString → GoString → GoString

/-- A host with `/` as separator. -/
def slashPlatform : Platform := { windows := false, Join := Filepath.Join }

/-- The client methods `doList` invokes, in order. -/
inductive ClientCall where
  | Stat
  | URL
  | List (recursive : Bool)
  deriving DecidableEq, Repr

/-- How a run of `doList` ends: it returns an error value (nil or not), or it
dereferences a nil `Content`. -/
inductive Returned where
  | value (err : Option ProbeError)
  | nilDereference
  deriving DecidableEq, Repr

/-- What a run of `doList` does: the client calls it makes, the messages it
prints with `Prints`, the errors it reports through `errorIf` with their
messages, and how it ends. -/
structure Run where
  calls : List ClientCall
  printed : List ContentMessage
  reported : List (ProbeError × GoString)
  returned : Returned
  deriving DecidableEq, Repr

/-- What the body of the loop of `doList` decides for one channel element. -/
inductive Verdict where
  /-- A `continue` after `errorIf(err.Trace(), msg)`. -/
  | skip (err : ProbeError) (msg : GoString)
  /-- The assignment `err = contentCh.Err.Trace()` and `break`. -/
  | stop (err : ProbeError)
  /-- The call `Prints("%s\n", parseContent(...))`. -/
  | print (msg : ContentMessage)
  /-- A nil `contentCh.Content` on an element without error. -/
  | nilContent
  deriving DecidableEq, Repr

/-- The content handed to `parseContent`: with several arguments and a
directory as root, the name is re-rooted with `filepath.Join` below the
root's name; otherwise it is left alone. -/
def presented (p : Platform) (multipleArgs : Bool) (parentContent c : Content) : Content :=
  if multipleArgs && parentContent.Typ.IsDir then
    { c with Name := p.Join parentContent.Name (TrimPrefix c.Name parentContent.Name) }
  else c

/-- The body of the `for` loop of `doList` on one channel element. -/
def listElement (p : Platform) (multipleArgs : Bool) (parentContent : Content)
    (contentCh : ContentOnChannel) : Verdict :=
  match contentCh.Err with
  | some err =>
    match err.ToGoError with
    | .BrokenSymlink _ => .skip (err.Trace []) "Unable to list broken link.".toList
    | .TooManyLevelsSymlink _ => .skip (err.Trace []) "Unable to list too many levels link.".toList
    | goErr =>
      if goErr.IsNotExist || goErr.IsPermission then
        match contentCh.Content with
        | some c =>
          if c.Typ.IsDir && c.Typ.IsSymlink then
            .skip (err.Trace []) "Unable to list broken folder link.".toList
          else .skip (err.Trace []) "Unable to list.".toList
        | none => .skip (err.Trace []) "Unable to list.".toList
      else .stop (err.Trace [])
  | none =>
    match contentCh.Content with
    | some c => .print (parseContent p.windows (presented p multipleArgs parentContent c))
    | none => .nilContent

/-- The `for` loop of `doList` over the elements of the channel, followed by
the final `if err != nil { return err.Trace() }; return nil`. The `calls`
field is left empty here. -/
def listLoop (p : Platform) (multipleArgs : Bool) (parentContent : Content) :
    List ContentOnChannel → Run
  | [] => { calls := [], printed := [], reported := [], returned := .value none }
  | contentCh :: rest =>
    match listElement p multipleArgs parentContent contentCh with
    | .skip err msg =>
      let r := listLoop p multipleArgs parentContent rest
      { r with reported := (err, msg) :: r.reported }
    | .stop err =>
      { calls := [], printed := [], reported := [], returned := .value (some (err.Trace [])) }
    | .print msg =>
      let r := listLoop p multipleArgs parentContent rest
      { r with printed := msg :: r.printed }
    | .nilContent =>
      { calls := [], printed := [], reported := [], returned := .nilDereference }

/-- The function `doList`. -/
def doList (p : Platform) (clnt : Client) (recursive multipleArgs : Bool) : Run :=
  match clnt.Stat with
  | .error err =>
    { calls := [.Stat, .URL], printed := [], reported := [],
      returned := .value (some (err.Trace [clnt.URL])) }
  | .ok parentContent =>
    let r := listLoop p multipleArgs parentContent (clnt.List recursive)
    { r with calls := [.Stat, .List recursive] }

/-- A channel element that carries an entry: no error and a content. -/
def IsEntry (contentCh : ContentOnChannel) : Bool :=
  contentCh.Err.isNone && contentCh.Content.isSome

/-- The errors the spec lists as recovered locally: `BrokenSymlink`,
`TooManyLevelsSymlink`, not-exist and permission-denied. -/
def Recoverable : GoError → Bool
  | .BrokenSymlink _ => true
  | .TooManyLevelsSymlink _ => true
  | .os .notExist => true
  | .os .permission => true
  | _ => false

/-- A channel element whose error is recovered locally. -/
def IsRecoverable (contentCh : ContentOnChannel) : Bool :=
  match contentCh.Err with
  | some err => Recoverable err.ToGoError
  | none => false

/-- The entries of a stream, in stream order: the contents of the elements
without error. -/
def entries (stream : List ContentOnChannel) : List Content :=
  stream.filterMap (fun contentCh =>
    match contentCh.Err with
    | some _ => none
    | none => contentCh.Content)

/-- A channel element carrying a regular file of five bytes. -/
def fileEntry (name : GoString) : ContentOnChannel :=
  { Content := some { Name := name, Time := 0, Size := 5, Typ := ⟨0⟩ }, Err := none }

/-- A channel element carrying the error `err` and no content. -/
def errorEntry (err : GoError) : ContentOnChannel :=
  { Content := none, Err := some { Cause := err, CallTrace := [] } }

/-- The content of a directory called `name`. -/
def dirContent (name : GoString) : Content :=
  { Name := name, Time := 0, Size := 0, Typ := ModeDir }

/-- A client whose root is the directory `name` and whose listing is `stream`,
whatever the recursion flag. -/
def dirClient (name : GoString) (stream : List ContentOnChannel) : Client :=
  { URL := name, Stat := .ok (dirContent name), List := fun _ => stream }

/-- A directory with nine readable children and one child that cannot be
read. -/
def nineAndOne : Client :=
  dirClient "dir".toList
    [fileEntry "object0".toList, fileEntry "object1".toList, fileEntry "object2".toList,
     errorEntry (.os .permission),
     fileEntry "object3".toList, fileEntry "object4".toList, fileEntry "object5".toList,
     fileEntry "object6".toList, fileEntry "object7".toList, fileEntry "object8".toList]

/-- A client whose root does not exist; its listing would deliver one file. -/
def missingRoot : Client :=
  { URL := "dir".toList,
    Stat := .error { Cause := .os .notExist, CallTrace := [] },
    List := fun _ => [fileEntry "object0".toList] }

end Ls

/-! ## The copy-URL classifier -/

namespace Cp

/-- The type `copyURLsType`. -/
inductive copyURLsType where
  | copyURLsTypeInvalid
  | copyURLsTypeA
  | copyURLsTypeB
  | copyURLsTypeC
  | copyURLsTypeD
  deriving DecidableEq, Repr

/-- The predicate `unicode.IsSpace`, which `strings.TrimSpace` trims by. -/
def isSpace (c : Char) : Bool :=
  c = '\t' || c = '\n' || c.toNat = 0x0B || c.toNat = 0x0C || c = '\r' || c = ' ' ||
  c.toNat = 0x85 || c.toNat = 0xA0 || c.toNat = 0x1680 ||
  (0x2000 ≤ c.toNat && c.toNat ≤ 0x200A) || c.toNat = 0x2028 || c.toNat = 0x2029 ||
  c.toNat = 0x202F || c.toNat = 0x205F || c.toNat = 0x3000

/-- A string is blank: `strings.TrimSpace` leaves nothing of it. -/
def isBlank (s : GoString) : Bool := s.all isSpace

/-- Modelled from the spec: the source of `guessCopyURLType` is not in the
tree (only the test `TestCopyURLType` calls it), so the function follows the
rules of the URL classifier of the specification, in their order. The
recursive-marker test `isURLRecursive` and the test `isContainer` ("the target
names a container, it has no object key") are parameters. A nil and an empty
slice of sources are both the empty list.
1. `Invalid` if the sources are empty or the target is empty or blank;
2. `Invalid` if there is more than one source and not all are recursive;
3. one source: `TypeC` if it is recursive, else `TypeB` if the target is a
   container, else `TypeA`;
4. more than one source (all recursive): `TypeD`. -/
def guessCopyURLType (isURLRecursive isContainer : GoString → Bool)
    (sourceURLs : List GoString) (targetURL : GoString) : copyURLsType :=
  if sourceURLs = [] ∨ isBlank targetURL = true then .copyURLsTypeInvalid
  else if 1 < sourceURLs.length ∧ ¬ sourceURLs.all isURLRecursive = true then
    .copyURLsTypeInvalid
  else
    match sourceURLs with
    | [sourceURL] =>
      if isURLRecursive sourceURL then .copyURLsTypeC
      else if isContainer targetURL then .copyURLsTypeB
      else .copyURLsTypeA
    | _ => .copyURLsTypeD

end Cp

end Mc

/-! ## The filesystem client: `GetObjectMetadata`, `List` and `Stat` -/

namespace Mc.Fs

/-- The type `client.Item`. -/
structure Item where
  Name : GoString
  Time : Int
  Size : Int
  deriving DecidableEq, Repr

/-- The method `fsClient.GetObjectMetadata`: the item of a regular file, with
the base name, the size and the modification time of its stat. -/
def fsClient.GetObjectMetadata (h : Host) (f : fsClient) : Except IodineError Item :=
  match (getObjectMetadata h f).result with
  | .error err => .error (iodineAgain err)
  | .ok st => .ok { Name := st.Name, Size := st.Size, Time := st.ModTime }

/-- One call of the walk function by `filepath.Walk`: the path, and the
`os.FileInfo` of the path or the error met there. -/
structure Visit where
  fp : GoString
  info : Except OsError FileInfo

/-- The calls `filepath.Walk(root, fn)` makes for as long as `fn` returns nil,
in order: the root first, then what is below it, every directory in the
lexical order of its entries. -/
abbrev Walk := GoString → List Visit

/-- The closure `visitFS` of `fsClient.List`, run over the visits of the walk
with the items collected so far: a permission error is skipped, any other
error ends the walk and is returned, a file or directory is appended with its
path, modification time and size. -/
def visitFS : List Visit → List Item → Except OsError (List Item)
  | [], items => .ok items
  | v :: vs, items =>
    match v.info with
    | .error err => if osIsPermission err then visitFS vs items else .error err
    | .ok fi => visitFS vs (items ++ [{ Name := v.fp, Time := fi.ModTime, Size := fi.Size }])

/-- The method `Less` of `client.BySize`, whose declaration is in package
`client`, outside the tree: items compare by their `Size`, as the name of the
type says. -/
def BySizeLess (a b : Item) : Bool := decide (a.Size < b.Size)

/-- The call `sort.Sort(client.BySize(items))`. The library promises a
rearrangement in which no later item is `Less` than an earlier one, and no
particular order among items of equal size. -/
structure Sorter where
  sort : List Item → List Item
  perm : ∀ items, (sort items).Perm items
  sorted : ∀ items, (sort items).Pairwise (fun a b => BySizeLess b a = false)

/-- The method `fsClient.List`: the one item of a regular file; for any other
path the items of the walk, sorted with `client.BySize`. -/
def fsClient.List (h : Host) (walk : Walk) (sorter : Sorter) (f : fsClient) :
    Except IodineError (List Item) :=
  match fsClient.GetObjectMetadata h f with
  | .ok item => .ok ([] ++ [item])
  | .error _ =>
    match visitFS (walk f.path) [] with
    | .error err => .error (iodineNew (.os err))
    | .ok items => .ok (sorter.sort items)

/-- The items of the visits that carry a `FileInfo`, in walk order. -/
def walked (visits : List Visit) : List Item :=
  visits.filterMap (fun v =>
    match v.info with
    | .error _ => none
    | .ok fi => some { Name := v.fp, Time := fi.ModTime, Size := fi.Size })

/-- The items are in ascending order of name (Go compares strings
lexicographically). -/
def NameAscending (items : List Item) : Prop :=
  items.Pairwise (fun a b => a.Name ≤ b.Name)

/-- The items are in ascending order of size. -/
def SizeAscending (items : List Item) : Prop :=
  items.Pairwise (fun a b => a.Size ≤ b.Size)

/-- The order "the size of `a` is at most the size of `b`". -/
def sizeLE (a b : Item) : Prop := a.Size ≤ b.Size

instance : DecidableRel sizeLE := fun a b => by
  unfold sizeLE; exact inferInstance

instance : IsTotal Item sizeLE := ⟨fun a b => Int.le_total a.Size b.Size⟩

instance : IsTrans Item sizeLE := ⟨fun _ _ _ hab hbc => Int.le_trans hab hbc⟩

/-- A sorter for the examples: insertion sort by size. -/
def insertionSorter : Sorter :=
  { sort := fun items => items.insertionSort sizeLE
    perm := fun items => List.perm_insertionSort sizeLE items
    sorted := fun items =>
      (List.sorted_insertionSort sizeLE items).imp (fun {a b} hab => by
        simp only [BySizeLess, decide_eq_false_iff_not, not_lt]
        exact hab) }

/-- A host on which `dir` is a directory; its stat is all the examples use. -/
def dirHost : Host :=
  { Clean := fun p => p
    Stat := fun p =>
      if p = "dir".toList then
        .ok { Name := "dir".toList, Size := 4096, IsDir := true, ModTime := 0 }
      else .error .notExist
    Open := fun _ => .error .notExist }

/-- The walk of the directory `dir` that holds the file `a` of ten bytes and
the file `b` of one byte. -/
def dirWalk : Walk := fun _ =>
  [{ fp := "dir".toList,
     info := .ok { Name := "dir".toList, Size := 4096, IsDir := true, ModTime := 0 } },
   { fp := "dir/a".toList,
     info := .ok { Name := "a".toList, Size := 10, IsDir := false, ModTime := 0 } },
   { fp := "dir/b".toList,
     info := .ok { Name := "b".toList, Size := 1, IsDir := false, ModTime := 0 } }]

/-- How a call of `fsClient.Stat` ends: it returns an error value (nil or
not), or it calls `IsDir` on a nil `os.FileInfo`. -/
inductive StatReturn where
  | value (err : Option IodineError)
  | nilDereference
  deriving DecidableEq, Repr

/-- The method `fsClient.Stat`. When `os.Stat` fails it returns a nil
`FileInfo`; the method returns only for a not-exist error, and goes on to
`st.IsDir()` for any other. -/
def fsClient.Stat (h : Host) (f : fsClient) : StatReturn :=
  match h.Stat f.path with
  | .error err =>
    if osIsNotExist err then .value (some (iodineNew (.os err)))
    else .nilDereference
  | .ok st =>
    if !st.IsDir then .value (some (iodineNew (.FileNotDir f.path)))
    else .value none

/-- A host on which every stat is refused with a permission error. -/
def deniedHost : Host :=
  { Clean := fun p => p
    Stat := fun _ => .error .permission
    Open := fun _ => .error .permission }

end Mc.Fs

/-! ## The copy-URL classifier: recursive marker and containers -/

namespace Mc.Cp

/-- Modelled from the spec: the constant `recursiveSeparator` is not in the
tree; it is the trailing wildcard marker of a recursive URL, written `...` in
the examples of `share upload` and in `TestCopyURLType`. -/
def recursiveSeparator : GoString := "...".toList

/-- Modelled from the spec: the function `isURLRecursive` is not in the tree;
the recursive flag of a URL is determined by its literal suffix, the
recursive marker. -/
def isURLRecursive (urlStr : GoString) : Bool := HasSuffix urlStr recursiveSeparator

/-- The part of a URL after `scheme://`, when it has a scheme. -/
def afterScheme : GoString → Option GoString
  | [] => none
  | c :: cs =>
    if HasPrefix (c :: cs) "://".toList then some (cs.drop 2) else afterScheme cs

/-- The path of a URL: what follows the host of `scheme://host`, from its
first `/` on; the whole string for a URL without scheme. -/
def urlPath (urlStr : GoString) : GoString :=
  match afterScheme urlStr with
  | some rest => rest.dropWhile (fun c => c != '/')
  | none => urlStr

/-- Modelled from the spec: the test "the target string denotes a container"
is not in the tree; a URL names a container (a bucket or root) when its path
has no object key, that is at most one non-empty element. -/
def isContainer (urlStr : GoString) : Bool :=
  decide (((Filepath.splitSlash (urlPath urlStr)).filter (fun comp => comp != [])).length ≤ 1)

/-- The URL of the test server, the `u` of the classifier examples. -/
def serverURL : GoString := "http://127.0.0.1:9000".toList

end Mc.Cp

/-! ## Share upload (`share-upload-main.go`) -/

namespace Mc.Share

/-- A Go `map[string]string` that is not nil: the value of each key it
holds. -/
abbrev Fields := GoString → Option GoString

/-- A Go `map[string]string`; `none` is the nil map. -/
abbrev StringMap := Option Fields

/-- The index expression `m[key]`: the value of the key, the empty string for
a key the map does not hold and for the nil map. -/
def StringMap.get (m : StringMap) (key : GoString) : GoString :=
  match m with
  | none => []
  | some fields => (fields key).getD []

/-- The assignment `m[key] = value` on a map that is not nil. -/
def Fields.set (fields : Fields) (key value : GoString) : Fields :=
  fun k => if k = key then some value else fields k

/-- The type `ShareMessageV3` (and `ShareMessage`, which has the same three
fields set here). -/
structure ShareMessageV3 where
  Expiry : Int
  UploadInfo : StringMap
  Key : GoString

/-- One record of the share history `sURLs.URLs`. -/
structure SharedURL where
  Date : Int
  Message : ShareMessageV3

/-- The part of `client.Client` that `doShareUploadURL` uses. -/
structure Client where
  ShareUpload : Bool → Int → GoString → Except Ls.ProbeError StringMap

/-- What `doShareUploadURL` reads from outside: the clock `time.Now().UTC()`,
the share history `loadSharedURLsV3` loads, the client `url2Client` makes for a
URL, and the constant `recursiveSeparator`. -/
structure Env where
  now : Int
  loadSharedURLsV3 : Except Ls.ProbeError (List SharedURL)
  url2Client : GoString → Except Ls.ProbeError Client
  recursiveSeparator : GoString

/-- How a run of `doShareUploadURL` ends: it returns an error value (nil or
not), or it assigns to an entry of a nil map. -/
inductive Returned where
  | value (err : Option Ls.ProbeError)
  | nilMapAssignment

/-- What a run of `doShareUploadURL` does: the message it prints, the share
history it hands to `saveSharedURLsV3`, and how it ends. -/
structure Run where
  printed : Option ShareMessageV3
  saved : Option (List SharedURL)
  returned : Returned

/-- The placeholder `<FILE>`. -/
def filePlaceholder : GoString := "<FILE>".toList

/-- The function `doShareUploadURL`. -/
def doShareUploadURL (env : Env) (targetURL : GoString) (recursive : Bool) (expires : Int)
    (contentType : GoString) : Run :=
  let shareDate := env.now
  match env.loadSharedURLsV3 with
  | .error err => { printed := none, saved := none, returned := .value (some (err.Trace [])) }
  | .ok sURLs =>
    match env.url2Client targetURL with
    | .error err => { printed := none, saved := none, returned := .value (some (err.Trace [])) }
    | .ok clnt =>
      match clnt.ShareUpload recursive expires contentType with
      | .error err =>
        { printed := none, saved := none, returned := .value (some (err.Trace [])) }
      | .ok m =>
        let finish (Key : GoString) (m : StringMap) : Run :=
          let shareMessageV3 : ShareMessageV3 := { Expiry := expires, UploadInfo := m, Key := Key }
          { printed := some shareMessageV3,
            saved := some (sURLs ++ [{ Date := shareDate, Message := shareMessageV3 }]),
            returned := .value none }
        if recursive then
          match m with
          | none => { printed := none, saved := none, returned := .nilMapAssignment }
          | some fields =>
            finish (targetURL ++ env.recursiveSeparator)
              (some (fields.set "key".toList (StringMap.get m "key".toList ++ filePlaceholder)))
        else finish targetURL m

/-- A backend for the examples: its upload form has a key, the target's
object name, and a policy. -/
def formClient : Client :=
  { ShareUpload := fun _ _ _ =>
      .ok (some (fun k =>
        if k = "key".toList then some "backup".toList
        else if k = "policy".toList then some "abc".toList
        else none)) }

/-- An environment for the examples: one earlier record in the history, and
`...` as recursive separator. -/
def formEnv : Env :=
  { now := 100
    loadSharedURLsV3 := .ok [{ Date := 7, Message := { Expiry := 1, UploadInfo := none, Key := [] } }]
    url2Client := fun _ => .ok formClient
    recursiveSeparator := "...".toList }

end Mc.Share

/-! # Theorems -/

namespace Mc.Fs

theorem wrapInt64_of_isInt64 (x : Int) (hx : isInt64 x) : wrapInt64 x = x := by
  unfold isInt64 minInt64 maxInt64 at hx
  unfold wrapInt64
  omega

theorem getObjectMetadata_regular (h : Host) (f : fsClient) (st : FileInfo)
    (hstat : h.Stat (h.Clean f.path) = .ok st) (hdir : st.IsDir = false) :
    getObjectMetadata h f = { calls := [Syscall.stat (h.Clean f.path)], result := .ok st } := by
  simp [getObjectMetadata, hstat, hdir]

/-- C1 (the code at the failing input): on a readable ten-byte file,
`GetPartial(2, MaxInt64)` has `offset + length - 1` far beyond the size, yet
the `int64` sum wraps to a negative number, the range test passes, and the
call succeeds with a body and the size `MaxInt64` rather than failing with
`InvalidRange`. -/
theorem GetPartial_wraps_past_range_test :
    (10 : Int) < 2 + maxInt64 - 1 ∧
    wrapInt64 (wrapInt64 (2 + maxInt64) - 1) = minInt64 ∧
    (GetPartial (singleFileHost "f".toList tenBytes) ⟨"f".toList⟩ 2 maxInt64).result
      = .ok { body := [2, 3, 4, 5, 6, 7, 8, 9], size := maxInt64 } := by
  refine ⟨by decide, by decide, ?_⟩
  rfl

/-- C2 (counterexample): on a readable ten-byte file, `GetPartial(0, 3)` is
within the range of the claim and succeeds reporting size 3, but its body
yields all ten bytes of the file, not three; and `GetPartial(0, 11)`, also
within the range of the claim (`0 + 11 - 1` does not exceed 10), succeeds
reporting size 11 with a body of ten bytes. -/
theorem GetPartial_body_not_cut_at_length :
    RegularFile (singleFileHost "f".toList tenBytes) ⟨"f".toList⟩ tenBytes ∧
    ((0 : Int) + 3 - 1 ≤ 10 ∧
      (GetPartial (singleFileHost "f".toList tenBytes) ⟨"f".toList⟩ 0 3).result
        = .ok { body := tenBytes, size := 3 } ∧ tenBytes.length ≠ 3) ∧
    ((0 : Int) + 11 - 1 ≤ 10 ∧
      (GetPartial (singleFileHost "f".toList tenBytes) ⟨"f".toList⟩ 0 11).result
        = .ok { body := tenBytes, size := 11 } ∧ tenBytes.length ≠ 11) := by
  refine ⟨⟨⟨⟨"f".toList, 10, false, 0⟩, rfl, rfl, rfl⟩, rfl, by decide⟩, ?_, ?_⟩
  · exact ⟨by decide, rfl, by decide⟩
  · exact ⟨by decide, rfl, by decide⟩

/-- C2 (amended): for an existing, readable regular file holding `data`, an
offset `0 ≤ offset` and a length `0 ≤ length` with `offset + length` at most
the size, `GetPartial` succeeds and reports `size = length`; the body is the
file from `offset` to its end (`size - offset` bytes, not cut at `length`),
so its first `length` bytes are exactly the bytes `offset .. offset+length-1`
of the file. -/
theorem GetPartial_in_range (h : Host) (f : fsClient) (data : List UInt8)
    (offset length : Int) (hfile : RegularFile h f data)
    (hoff : 0 ≤ offset) (hlen : 0 ≤ length) (hrange : offset + length ≤ data.length) :
    ∃ obj, (GetPartial h f offset length).result = .ok obj ∧
      obj.size = length ∧
      obj.body = data.drop offset.toNat ∧
      (obj.body.length : Int) = data.length - offset ∧
      (obj.body.take length.toNat).length = length.toNat ∧
      ∀ i, i < length.toNat → (obj.body.take length.toNat)[i]? = data[offset.toNat + i]? := by
  obtain ⟨⟨st, hstat, hdir, hsize⟩, hopen, hmax⟩ := hfile
  have hmd := getObjectMetadata_regular h f st hstat hdir
  unfold maxInt64 at hmax
  have hw1 : wrapInt64 (offset + length) = offset + length :=
    wrapInt64_of_isInt64 _ (by unfold isInt64 minInt64 maxInt64; omega)
  have hw2 : wrapInt64 (offset + length - 1) = offset + length - 1 :=
    wrapInt64_of_isInt64 _ (by unfold isInt64 minInt64 maxInt64; omega)
  have hnot : ¬ (offset > st.Size ∨ wrapInt64 (wrapInt64 (offset + length) - 1) > st.Size) := by
    rw [hw1, hw2, hsize]; omega
  have hcopy : copyNDiscard data offset = .ok (data.drop offset.toNat) := by
    unfold copyNDiscard
    rw [if_pos (by omega)]
  refine ⟨{ body := data.drop offset.toNat, size := length }, ?_, rfl, rfl, ?_, ?_, ?_⟩
  · unfold GetPartial
    rw [if_neg (by omega)]
    simp only [hmd, hopen, if_neg hnot, hcopy]
  · simp only [List.length_drop]; omega
  · simp only [List.length_take, List.length_drop]; omega
  · intro i hi
    rw [List.getElem?_take_of_lt hi, List.getElem?_drop]

/-- C2 (witness): the amended statement on a ten-byte file, for the range
`offset = 2`, `length = 3`. -/
theorem GetPartial_in_range_witness :
    ∃ obj, (GetPartial (singleFileHost "f".toList tenBytes) ⟨"f".toList⟩ 2 3).result = .ok obj ∧
      obj.size = 3 ∧
      obj.body = tenBytes.drop (2 : Int).toNat ∧
      (obj.body.length : Int) = tenBytes.length - 2 ∧
      (obj.body.take (3 : Int).toNat).length = (3 : Int).toNat ∧
      ∀ i, i < (3 : Int).toNat →
        (obj.body.take (3 : Int).toNat)[i]? = tenBytes[(2 : Int).toNat + i]? :=
  GetPartial_in_range (singleFileHost "f".toList tenBytes) ⟨"f".toList⟩ tenBytes 2 3
    ⟨⟨⟨"f".toList, 10, false, 0⟩, rfl, rfl, rfl⟩, rfl, by decide⟩
    (by decide) (by decide) (by decide)

/-- C3: for every host and path (existing or not, file or directory) and
every length, `GetPartial` with a negative offset fails with
`client.InvalidRange` carrying that offset, without any system call: neither
the stat nor the open of the file is attempted. -/
theorem GetPartial_negative_offset (h : Host) (f : fsClient) (offset length : Int)
    (hneg : offset < 0) :
    (GetPartial h f offset length).result = .error (iodineNew (.InvalidRange offset)) ∧
    (GetPartial h f offset length).calls = [] := by
  unfold GetPartial
  rw [if_pos hneg]
  exact ⟨rfl, rfl⟩

/-- C3 (witness): offset `-1` on a host whose file exists. -/
theorem GetPartial_negative_offset_witness :
    (GetPartial (singleFileHost "f".toList tenBytes) ⟨"f".toList⟩ (-1) 5).result
      = .error (iodineNew (.InvalidRange (-1))) ∧
    (GetPartial (singleFileHost "f".toList tenBytes) ⟨"f".toList⟩ (-1) 5).calls = [] :=
  GetPartial_negative_offset (singleFileHost "f".toList tenBytes) ⟨"f".toList⟩ (-1) 5 (by decide)

end Mc.Fs

namespace Mc.Ls

/-- The message printed for an entry `c` of a listing below `parentContent`. -/
theorem listElement_entry (p : Platform) (multipleArgs : Bool) (parentContent : Content)
    (contentCh : ContentOnChannel) (hentry : IsEntry contentCh = true) :
    ∃ c, contentCh.Content = some c ∧ contentCh.Err = none ∧
      listElement p multipleArgs parentContent contentCh
        = .print (parseContent p.windows (presented p multipleArgs parentContent c)) := by
  obtain ⟨content, err⟩ := contentCh
  cases err with
  | some e => simp [IsEntry] at hentry
  | none =>
    cases content with
    | none => simp [IsEntry] at hentry
    | some c => exact ⟨c, rfl, rfl, rfl⟩

theorem listElement_recoverable (p : Platform) (multipleArgs : Bool) (parentContent : Content)
    (contentCh : ContentOnChannel) (hrec : IsRecoverable contentCh = true) :
    ∃ err msg, contentCh.Err = some err ∧
      listElement p multipleArgs parentContent contentCh = .skip (err.Trace []) msg := by
  obtain ⟨content, err⟩ := contentCh
  cases err with
  | none => simp [IsRecoverable] at hrec
  | some e =>
    obtain ⟨cause, tr⟩ := e
    refine ⟨⟨cause, tr⟩, ?_⟩
    cases cause with
    | BrokenSymlink path => exact ⟨_, rfl, rfl⟩
    | TooManyLevelsSymlink path => exact ⟨_, rfl, rfl⟩
    | other msg => simp [IsRecoverable, Recoverable, ProbeError.ToGoError] at hrec
    | os oe =>
      cases oe with
      | other msg => simp [IsRecoverable, Recoverable, ProbeError.ToGoError] at hrec
      | notExist =>
        cases content with
        | none => exact ⟨_, rfl, rfl⟩
        | some c =>
          by_cases hc : (c.Typ.IsDir && c.Typ.IsSymlink) = true
          · exact ⟨"Unable to list broken folder link.".toList, rfl, by
              simp [listElement, ProbeError.ToGoError, GoError.IsNotExist, osIsNotExist, hc]⟩
          · exact ⟨"Unable to list.".toList, rfl, by
              simp [listElement, ProbeError.ToGoError, GoError.IsNotExist, osIsNotExist, hc]⟩
      | permission =>
        cases content with
        | none => exact ⟨_, rfl, rfl⟩
        | some c =>
          by_cases hc : (c.Typ.IsDir && c.Typ.IsSymlink) = true
          · exact ⟨"Unable to list broken folder link.".toList, rfl, by
              simp [listElement, ProbeError.ToGoError, GoError.IsNotExist, GoError.IsPermission,
                osIsNotExist, osIsPermission, hc]⟩
          · exact ⟨"Unable to list.".toList, rfl, by
              simp [listElement, ProbeError.ToGoError, GoError.IsNotExist, GoError.IsPermission,
                osIsNotExist, osIsPermission, hc]⟩

theorem listElement_fatal (p : Platform) (multipleArgs : Bool) (parentContent : Content)
    (contentCh : ContentOnChannel) (err : ProbeError) (herr : contentCh.Err = some err)
    (hfatal : Recoverable err.ToGoError = false) :
    listElement p multipleArgs parentContent contentCh = .stop (err.Trace []) := by
  obtain ⟨content, e⟩ := contentCh
  simp only at herr
  subst herr
  obtain ⟨cause, tr⟩ := err
  cases cause with
  | BrokenSymlink path => simp [Recoverable, ProbeError.ToGoError] at hfatal
  | TooManyLevelsSymlink path => simp [Recoverable, ProbeError.ToGoError] at hfatal
  | other msg => rfl
  | os oe =>
    cases oe with
    | other msg => rfl
    | notExist => simp [Recoverable, ProbeError.ToGoError] at hfatal
    | permission => simp [Recoverable, ProbeError.ToGoError] at hfatal

theorem entries_cons_entry (contentCh : ContentOnChannel) (rest : List ContentOnChannel)
    (c : Content) (hc : contentCh.Content = some c) (herr : contentCh.Err = none) :
    entries (contentCh :: rest) = c :: entries rest := by
  simp [entries, List.filterMap_cons, herr, hc]

theorem entries_cons_error (contentCh : ContentOnChannel) (rest : List ContentOnChannel)
    (err : ProbeError) (herr : contentCh.Err = some err) :
    entries (contentCh :: rest) = entries rest := by
  simp [entries, List.filterMap_cons, herr]

/-- The loop on a stream of entries and recoverable errors, followed by any
stream `rest`: the entries are printed first, and the loop then goes on with
`rest`. -/
theorem listLoop_append (p : Platform) (multipleArgs : Bool) (parentContent : Content)
    (before rest : List ContentOnChannel)
    (hbefore : ∀ e ∈ before, IsEntry e = true ∨ IsRecoverable e = true) :
    (listLoop p multipleArgs parentContent (before ++ rest)).returned
      = (listLoop p multipleArgs parentContent rest).returned ∧
    (listLoop p multipleArgs parentContent (before ++ rest)).printed
      = (entries before).map
          (fun c => parseContent p.windows (presented p multipleArgs parentContent c))
        ++ (listLoop p multipleArgs parentContent rest).printed := by
  induction before with
  | nil => simp [entries]
  | cons e es ih =>
    have ih2 := ih (fun x hx => hbefore x (List.mem_cons_of_mem _ hx))
    rcases hbefore e (List.mem_cons_self _ _) with he | he
    · obtain ⟨c, hc, herr, hel⟩ := listElement_entry p multipleArgs parentContent e he
      rw [entries_cons_entry e es c hc herr]
      simp only [List.cons_append, listLoop, hel, List.map_cons, List.append_eq]
      exact ⟨ih2.1, by rw [ih2.2]⟩
    · obtain ⟨err, msg, herr, hel⟩ := listElement_recoverable p multipleArgs parentContent e he
      rw [entries_cons_error e es err herr]
      simp only [List.cons_append, listLoop, hel, List.append_eq]
      exact ih2

end Mc.Ls

namespace Mc.Ls

/-- C4: when the root's `Stat` succeeds and every element of the `List`
stream is an entry or carries a `BrokenSymlink`, `TooManyLevelsSymlink`,
not-exist or permission-denied error, `doList` returns nil and prints exactly
the entries, one message each, in stream order. -/
theorem doList_recovers_locally (p : Platform) (clnt : Client) (recursive multipleArgs : Bool)
    (parentContent : Content) (hstat : clnt.Stat = .ok parentContent)
    (hstream : ∀ e ∈ clnt.List recursive, IsEntry e = true ∨ IsRecoverable e = true) :
    (doList p clnt recursive multipleArgs).returned = .value none ∧
    (doList p clnt recursive multipleArgs).printed
      = (entries (clnt.List recursive)).map
          (fun c => parseContent p.windows (presented p multipleArgs parentContent c)) := by
  have h := listLoop_append p multipleArgs parentContent (clnt.List recursive) [] hstream
  simp only [List.append_nil, listLoop] at h
  simp only [doList, hstat]
  exact h

/-- C4 (witness): nine readable children and one permission-denied child give
a nil result and nine printed messages. -/
theorem doList_recovers_locally_witness :
    ((doList slashPlatform nineAndOne false false).returned = .value none ∧
      (doList slashPlatform nineAndOne false false).printed
        = (entries (nineAndOne.List false)).map
            (fun c => parseContent slashPlatform.windows
              (presented slashPlatform false (dirContent "dir".toList) c))) ∧
    (entries (nineAndOne.List false)).length = 9 ∧
    (doList slashPlatform nineAndOne false false).printed.length = 9 :=
  ⟨doList_recovers_locally slashPlatform nineAndOne false false (dirContent "dir".toList) rfl
    (by decide), by decide, by decide⟩

/-- C5: when the root's `Stat` succeeds and the `List` stream has an element
whose error is none of `BrokenSymlink`, `TooManyLevelsSymlink`, not-exist,
permission-denied, `doList` stops at the first such element: it returns that
error, and it prints the entries that precede the element and nothing of what
follows it. -/
theorem doList_stops_at_fatal (p : Platform) (clnt : Client) (recursive multipleArgs : Bool)
    (parentContent : Content) (before after : List ContentOnChannel)
    (contentCh : ContentOnChannel) (err : ProbeError)
    (hstat : clnt.Stat = .ok parentContent)
    (hstream : clnt.List recursive = before ++ contentCh :: after)
    (hbefore : ∀ e ∈ before, IsEntry e = true ∨ IsRecoverable e = true)
    (herr : contentCh.Err = some err) (hfatal : Recoverable err.ToGoError = false) :
    (doList p clnt recursive multipleArgs).returned = .value (some ((err.Trace []).Trace [])) ∧
    ((err.Trace []).Trace []).ToGoError = err.ToGoError ∧
    (doList p clnt recursive multipleArgs).printed
      = (entries before).map
          (fun c => parseContent p.windows (presented p multipleArgs parentContent c)) := by
  have h := listLoop_append p multipleArgs parentContent before (contentCh :: after) hbefore
  have hel := listElement_fatal p multipleArgs parentContent contentCh err herr hfatal
  simp only [listLoop, hel, List.append_nil] at h
  simp only [doList, hstat, hstream]
  exact ⟨h.1, rfl, h.2⟩

/-- C5 (witness): a file, a permission-denied child, a fatal error and a
second file: the fatal error is returned and only the first file is printed. -/
theorem doList_stops_at_fatal_witness :
    (doList slashPlatform
        (dirClient "dir".toList
          [fileEntry "a".toList, errorEntry (.os .permission),
           errorEntry (.other "boom".toList), fileEntry "b".toList]) false false).returned
      = .value (some ((ProbeError.Trace ⟨.other "boom".toList, []⟩ []).Trace [])) ∧
    ((ProbeError.Trace ⟨.other "boom".toList, []⟩ []).Trace []).ToGoError
      = ProbeError.ToGoError ⟨.other "boom".toList, []⟩ ∧
    (doList slashPlatform
        (dirClient "dir".toList
          [fileEntry "a".toList, errorEntry (.os .permission),
           errorEntry (.other "boom".toList), fileEntry "b".toList]) false false).printed
      = (entries [fileEntry "a".toList, errorEntry (.os .permission)]).map
          (fun c => parseContent slashPlatform.windows
            (presented slashPlatform false (dirContent "dir".toList) c)) :=
  doList_stops_at_fatal slashPlatform _ false false (dirContent "dir".toList)
    [fileEntry "a".toList, errorEntry (.os .permission)] [fileEntry "b".toList]
    (errorEntry (.other "boom".toList)) ⟨.other "boom".toList, []⟩ rfl rfl (by decide) rfl rfl

/-- C6: when the `Stat` of the root fails, `doList` returns the `Stat` error
with one more trace point (the client's URL), prints nothing, and calls only
`Stat` and `URL` of the client, never `List`. -/
theorem doList_stat_failure (p : Platform) (clnt : Client) (recursive multipleArgs : Bool)
    (err : ProbeError) (hstat : clnt.Stat = .error err) :
    (doList p clnt recursive multipleArgs).returned = .value (some (err.Trace [clnt.URL])) ∧
    (err.Trace [clnt.URL]).ToGoError = err.ToGoError ∧
    (doList p clnt recursive multipleArgs).printed = [] ∧
    (doList p clnt recursive multipleArgs).calls = [.Stat, .URL] ∧
    ∀ r, ClientCall.List r ∉ (doList p clnt recursive multipleArgs).calls := by
  have hrun : doList p clnt recursive multipleArgs
      = { calls := [.Stat, .URL], printed := [], reported := [],
          returned := .value (some (err.Trace [clnt.URL])) } := by
    simp only [doList, hstat]
  rw [hrun]
  refine ⟨rfl, rfl, rfl, rfl, ?_⟩
  intro r hr
  simp at hr

/-- C6 (witness): a root that does not exist. -/
theorem doList_stat_failure_witness :
    (doList slashPlatform missingRoot true false).returned
      = .value (some (ProbeError.Trace ⟨.os .notExist, []⟩ [missingRoot.URL])) ∧
    (ProbeError.Trace ⟨.os .notExist, []⟩ [missingRoot.URL]).ToGoError
      = ProbeError.ToGoError ⟨.os .notExist, []⟩ ∧
    (doList slashPlatform missingRoot true false).printed = [] ∧
    (doList slashPlatform missingRoot true false).calls = [.Stat, .URL] ∧
    ∀ r, ClientCall.List r ∉ (doList slashPlatform missingRoot true false).calls :=
  doList_stat_failure slashPlatform missingRoot true false ⟨.os .notExist, []⟩ rfl

end Mc.Ls

namespace Mc

theorem suffix_singleton_iff (s : GoString) (sep : Char) :
    [sep] <:+ s ↔ ∃ t, s = t ++ [sep] := by
  constructor
  · rintro ⟨t, ht⟩
    exact ⟨t, ht.symm⟩
  · rintro ⟨t, ht⟩
    exact ⟨t, ht.symm⟩

theorem TrimSuffix_concat (t : GoString) (sep : Char) : TrimSuffix (t ++ [sep]) [sep] = t := by
  have hs : [sep] <:+ t ++ [sep] := ⟨t, rfl⟩
  simp [TrimSuffix, HasSuffix, hs]

theorem TrimSuffix_of_not_suffix (s suf : GoString) (hs : ¬ suf <:+ s) : TrimSuffix s suf = s := by
  simp [TrimSuffix, HasSuffix, hs]

/-- After `strings.TrimSuffix(s, sep)` the string still ends with the
one-character `sep` exactly when `s` ended with `sep` twice. -/
theorem suffix_TrimSuffix_iff (s : GoString) (sep : Char) :
    [sep] <:+ TrimSuffix s [sep] ↔ ∃ t, s = t ++ [sep, sep] := by
  by_cases hs : [sep] <:+ s
  · obtain ⟨t, rfl⟩ := (suffix_singleton_iff s sep).1 hs
    rw [TrimSuffix_concat, suffix_singleton_iff]
    constructor
    · rintro ⟨u, rfl⟩
      exact ⟨u, by simp⟩
    · rintro ⟨u, hu⟩
      refine ⟨u, ?_⟩
      have h2 : t ++ [sep] = (u ++ [sep]) ++ [sep] := by simpa using hu
      exact List.append_cancel_right h2
  · rw [TrimSuffix_of_not_suffix s [sep] hs]
    constructor
    · intro h
      exact absurd h hs
    · rintro ⟨u, rfl⟩
      exact absurd ⟨u ++ [sep], by simp⟩ hs

end Mc

namespace Mc.Ls

theorem ReplaceChar_eq_backslash (windows : Bool) (ch : Char) (hw : windows = true) :
    (if ch = '/' then '\\' else ch) = '\\' ↔ IsSeparator windows ch = true := by
  subst hw
  by_cases h1 : ch = '/'
  · simp [IsSeparator, h1]
  · simp [IsSeparator, h1]

/-- C8 (counterexample): the file entry named `a//` is presented as `a/`,
which ends with the separator; `strings.TrimSuffix` removes one separator. -/
theorem parseContent_file_keeps_second_separator :
    FileMode.IsDir ⟨0⟩ = false ∧
    (parseContent false { Name := "a//".toList, Time := 0, Size := 0, Typ := ⟨0⟩ }).Name
      = "a/".toList ∧
    [separator false] <:+
      (parseContent false { Name := "a//".toList, Time := 0, Size := 0, Typ := ⟨0⟩ }).Name := by
  decide

/-- C8 (amended): for a content that is not a directory, the name of the
message is the input name with one trailing separator removed (every `/`
first written `\` on Windows): the host's form of the input name is the name
of the message followed by the separator when it ends with the separator,
and is the name of the message itself when it does not. The name of the
message ends with the path separator exactly when the input name ends with
two separators, so it does not end with the separator for every input name
that does not end with two separators. -/
theorem parseContent_file_name (windows : Bool) (c : Content) (hfile : c.Typ.IsDir = false) :
    (parseContent windows c).Filetype = "file".toList ∧
    (parseContent windows c).Name
      = TrimSuffix (hostName windows c.Name) [separator windows] ∧
    ([separator windows] <:+ hostName windows c.Name →
      (parseContent windows c).Name ++ [separator windows] = hostName windows c.Name) ∧
    (¬ [separator windows] <:+ hostName windows c.Name →
      (parseContent windows c).Name = hostName windows c.Name) ∧
    ([separator windows] <:+ (parseContent windows c).Name ↔
      ∃ rest a b, c.Name = rest ++ [a, b] ∧
        IsSeparator windows a = true ∧ IsSeparator windows b = true) := by
  have hname : (parseContent windows c).Name
      = TrimSuffix (hostName windows c.Name) [separator windows] := by
    cases windows
    · simp [parseContent, hfile, hostName, separator]
    · simp [parseContent, hfile, hostName, separator, ReplaceChar]
  refine ⟨by simp [parseContent, hfile], hname, ?_, ?_, ?_⟩
  · intro hs
    obtain ⟨t, ht⟩ := (suffix_singleton_iff _ _).1 hs
    rw [hname, ht, TrimSuffix_concat]
  · intro hs
    rw [hname, TrimSuffix_of_not_suffix _ _ hs]
  · rw [hname]
    cases windows with
    | false =>
      simp only [separator, hostName, Bool.false_eq_true, if_false]
      rw [suffix_TrimSuffix_iff]
      constructor
      · rintro ⟨t, ht⟩
        exact ⟨t, '/', '/', ht, by simp [IsSeparator], by simp [IsSeparator]⟩
      · rintro ⟨t, a, b, ht, ha, hb⟩
        simp [IsSeparator] at ha hb
        subst ha hb
        exact ⟨t, ht⟩
    | true =>
      simp only [separator, hostName, if_true]
      rw [suffix_TrimSuffix_iff]
      constructor
      · rintro ⟨t, ht⟩
        obtain ⟨l1, l2, hl, h1, h2⟩ := List.map_eq_append_iff.1 ht
        obtain ⟨a, l3, hl2, ha, h3⟩ := List.map_eq_cons_iff.1 h2
        obtain ⟨b, l4, hl3, hb, h4⟩ := List.map_eq_cons_iff.1 h3
        have hl4 : l4 = [] := by simpa using h4
        subst hl4 hl3 hl2
        exact ⟨l1, a, b, hl, (ReplaceChar_eq_backslash true a rfl).1 ha,
          (ReplaceChar_eq_backslash true b rfl).1 hb⟩
      · rintro ⟨t, a, b, ht, ha, hb⟩
        refine ⟨t.map (fun ch => if ch = '/' then '\\' else ch), ?_⟩
        have ha2 := (ReplaceChar_eq_backslash true a rfl).2 ha
        have hb2 := (ReplaceChar_eq_backslash true b rfl).2 hb
        rw [ht]
        simp only [List.map_append, List.map_cons, List.map_nil, ha2, hb2]

/-- C8 (witness): the file entry named `a/` is presented as `a`. -/
theorem parseContent_file_name_witness :
    ((parseContent false { Name := "a/".toList, Time := 0, Size := 0, Typ := ⟨0⟩ }).Filetype
        = "file".toList ∧
      (parseContent false { Name := "a/".toList, Time := 0, Size := 0, Typ := ⟨0⟩ }).Name
        = TrimSuffix (hostName false "a/".toList) [separator false] ∧
      ([separator false] <:+ hostName false "a/".toList →
        (parseContent false { Name := "a/".toList, Time := 0, Size := 0, Typ := ⟨0⟩ }).Name
          ++ [separator false] = hostName false "a/".toList) ∧
      (¬ [separator false] <:+ hostName false "a/".toList →
        (parseContent false { Name := "a/".toList, Time := 0, Size := 0, Typ := ⟨0⟩ }).Name
          = hostName false "a/".toList) ∧
      ([separator false] <:+
          (parseContent false { Name := "a/".toList, Time := 0, Size := 0, Typ := ⟨0⟩ }).Name ↔
        ∃ rest a b, "a/".toList = rest ++ [a, b] ∧
          IsSeparator false a = true ∧ IsSeparator false b = true)) ∧
    (parseContent false { Name := "a/".toList, Time := 0, Size := 0, Typ := ⟨0⟩ }).Name
      = "a".toList ∧
    (parseContent true { Name := "a/b/".toList, Time := 0, Size := 0, Typ := ⟨0⟩ }).Name
      = "a\\b".toList :=
  ⟨parseContent_file_name false { Name := "a/".toList, Time := 0, Size := 0, Typ := ⟨0⟩ }
    (by decide), by decide, by decide⟩

/-- C9: for a content that is a directory, whatever its name, the message of
`parseContent` has the file type `folder` and a name that ends with the path
separator of the host. -/
theorem parseContent_dir_name (windows : Bool) (c : Content) (hdir : c.Typ.IsDir = true) :
    (parseContent windows c).Filetype = "folder".toList ∧
    [separator windows] <:+ (parseContent windows c).Name := by
  refine ⟨by simp [parseContent, hdir], ?_⟩
  cases windows with
  | false =>
    have hname : (parseContent false c).Name = TrimSuffix c.Name ['/'] ++ ['/'] := by
      simp [parseContent, hdir]
    rw [hname]
    exact ⟨_, rfl⟩
  | true =>
    have hname : (parseContent true c).Name
        = TrimSuffix (ReplaceChar c.Name '/' '\\') ['\\'] ++ ['\\'] := by
      simp [parseContent, hdir]
    rw [hname]
    exact ⟨_, rfl⟩

/-- C9 (witness): the directory with the empty name is presented as `/`. -/
theorem parseContent_dir_name_witness :
    (parseContent false (dirContent [])).Filetype = "folder".toList ∧
    [separator false] <:+ (parseContent false (dirContent [])).Name :=
  parseContent_dir_name false (dirContent []) (by decide)

end Mc.Ls

namespace Mc.Cp

/-- C10: the classifier answers `copyURLsTypeInvalid` for every target when
the sources are empty (a nil or an empty slice), and for every list of
sources, recursive or not, when the target is empty or blank. -/
theorem guessCopyURLType_invalid (isURLRecursive isContainer : GoString → Bool)
    (sourceURLs : List GoString) (targetURL : GoString)
    (h : sourceURLs = [] ∨ targetURL = [] ∨ isBlank targetURL = true) :
    guessCopyURLType isURLRecursive isContainer sourceURLs targetURL = .copyURLsTypeInvalid := by
  rcases h with h | h | h
  · simp [guessCopyURLType, h]
  · simp [guessCopyURLType, h, isBlank]
  · simp [guessCopyURLType, h]

/-- C10 (witness): no source with the target `X`; two sources that both count
as recursive with the empty target, and with a target of two spaces. -/
theorem guessCopyURLType_invalid_witness :
    guessCopyURLType (fun _ => true) (fun _ => false) [] "X".toList = .copyURLsTypeInvalid ∧
    guessCopyURLType (fun _ => true) (fun _ => false) ["s...".toList, "t...".toList] []
      = .copyURLsTypeInvalid ∧
    guessCopyURLType (fun _ => true) (fun _ => false) ["s...".toList, "t...".toList] "  ".toList
      = .copyURLsTypeInvalid :=
  ⟨guessCopyURLType_invalid _ _ [] "X".toList (Or.inl rfl),
   guessCopyURLType_invalid _ _ ["s...".toList, "t...".toList] [] (Or.inr (Or.inl rfl)),
   guessCopyURLType_invalid _ _ ["s...".toList, "t...".toList] "  ".toList
     (Or.inr (Or.inr (by decide)))⟩

end Mc.Cp

namespace Mc.Filepath

/-- The model of `filepath.Clean` and `filepath.Join` on rows of the table of
Go's own test of `Clean`, and on `Join` with empty elements. -/
theorem Clean_table :
    Clean "".toList = ".".toList ∧
    Clean "abc".toList = "abc".toList ∧
    Clean "/".toList = "/".toList ∧
    Clean "abc/def/".toList = "abc/def".toList ∧
    Clean "../../".toList = "../..".toList ∧
    Clean "abc//def//ghi".toList = "abc/def/ghi".toList ∧
    Clean "//abc//".toList = "/abc".toList ∧
    Clean "/./abc/def".toList = "/abc/def".toList ∧
    Clean "abc/def/../ghi/../jkl".toList = "abc/jkl".toList ∧
    Clean "abc/def/../..".toList = ".".toList ∧
    Clean "/abc/def/../../..".toList = "/".toList ∧
    Clean "abc/def/../../../ghi/jkl/../../../mno".toList = "../../mno".toList ∧
    Clean "/../abc".toList = "/abc".toList ∧
    Clean "abc/../../././../def".toList = "../../def".toList ∧
    Join "a".toList "".toList = "a".toList ∧
    Join "".toList "b/".toList = "b".toList ∧
    Join "".toList "".toList = "".toList := by
  decide

theorem splitSlash_ne_nil (s : GoString) : splitSlash s ≠ [] := by
  cases s with
  | nil => simp [splitSlash]
  | cons c cs =>
    unfold splitSlash
    split_ifs
    · simp
    · cases splitSlash cs <;> simp

theorem splitSlash_append_slash (a b : GoString) :
    splitSlash (a ++ '/' :: b) = splitSlash a ++ splitSlash b := by
  induction a with
  | nil => simp [splitSlash]
  | cons c cs ih =>
    by_cases hc : c = '/'
    · simp [splitSlash, hc, ih]
    · simp only [List.cons_append, splitSlash, if_neg hc, List.append_eq]
      rw [ih]
      cases h : splitSlash cs with
      | nil => exact absurd h (splitSlash_ne_nil cs)
      | cons x xs => simp

theorem splitSlash_of_no_slash (s : GoString) (h : '/' ∉ s) : splitSlash s = [s] := by
  induction s with
  | nil => rfl
  | cons c cs ih =>
    have hc : c ≠ '/' := fun hc => h (by simp [hc])
    have hcs : '/' ∉ cs := fun hcs => h (List.mem_cons_of_mem _ hcs)
    simp [splitSlash, hc, ih hcs]

theorem splitSlash_joinSlash (elems : List GoString) (hne : elems ≠ [])
    (h : ∀ e ∈ elems, '/' ∉ e) : splitSlash (joinSlash elems) = elems := by
  induction elems with
  | nil => exact absurd rfl hne
  | cons e es ih =>
    have he := h e (List.mem_cons_self _ _)
    cases es with
    | nil => simp [joinSlash, splitSlash_of_no_slash e he]
    | cons e2 es2 =>
      simp only [joinSlash]
      rw [splitSlash_append_slash, splitSlash_of_no_slash e he,
        ih (by simp) (fun x hx => h x (List.mem_cons_of_mem _ hx))]
      simp

theorem cleanStep_plain (rooted : Bool) (out : List GoString) (comp : GoString)
    (h : PlainElem comp) : cleanStep rooted out comp = out ++ [comp] := by
  obtain ⟨h1, _, h3, h4⟩ := h
  simp [cleanStep, h1, h3, h4]

theorem foldl_cleanStep_plain (rooted : Bool) (elems out : List GoString)
    (h : ∀ e ∈ elems, PlainElem e) : elems.foldl (cleanStep rooted) out = out ++ elems := by
  induction elems generalizing out with
  | nil => simp
  | cons e es ih =>
    simp only [List.foldl_cons]
    rw [cleanStep_plain rooted out e (h e (List.mem_cons_self _ _)),
      ih _ (fun x hx => h x (List.mem_cons_of_mem _ hx))]
    simp

theorem cleanStep_extends (rooted : Bool) (out : List GoString) (comp : GoString)
    (h : comp ≠ dotdot) : out <+: cleanStep rooted out comp := by
  unfold cleanStep
  split_ifs
  · exact ⟨[], by simp⟩
  · exact ⟨[comp], rfl⟩

theorem foldl_cleanStep_extends (rooted : Bool) (comps out : List GoString)
    (h : dotdot ∉ comps) : out <+: comps.foldl (cleanStep rooted) out := by
  induction comps generalizing out with
  | nil => exact ⟨[], by simp⟩
  | cons e es ih =>
    simp only [List.foldl_cons]
    have he : e ≠ dotdot := fun he => h (by simp [he])
    have hes : dotdot ∉ es := fun hes => h (List.mem_cons_of_mem _ hes)
    obtain ⟨u, hu⟩ := cleanStep_extends rooted out e he
    obtain ⟨v, hv⟩ := ih (cleanStep rooted out e) hes
    exact ⟨u ++ v, by rw [← List.append_assoc, hu, hv]⟩

theorem joinSlash_append (a b : List GoString) (ha : a ≠ []) :
    joinSlash a <+: joinSlash (a ++ b) := by
  induction a with
  | nil => exact absurd rfl ha
  | cons e es ih =>
    cases es with
    | nil =>
      cases b with
      | nil => exact ⟨[], by simp⟩
      | cons b1 bs => exact ⟨'/' :: joinSlash (b1 :: bs), by simp [joinSlash]⟩
    | cons e2 es2 =>
      obtain ⟨u, hu⟩ := ih (by simp)
      refine ⟨u, ?_⟩
      simp only [joinSlash, List.cons_append, List.append_eq] at hu ⊢
      rw [List.append_assoc, List.cons_append, hu]

end Mc.Filepath

namespace Mc.Filepath

theorem joinSlash_head (e : GoString) (es : List GoString) (x : GoString) (he : e ≠ []) :
    (joinSlash (e :: es) ++ x).head? = e.head? := by
  cases e with
  | nil => exact absurd rfl he
  | cons c cs => cases es <;> simp [joinSlash]

theorem head_of_plain (e : GoString) (h : PlainElem e) : e.head? ≠ some '/' := by
  obtain ⟨h1, h2, _, _⟩ := h
  cases e with
  | nil => simp
  | cons c cs =>
    intro hc
    simp only [List.head?_cons, Option.some.injEq] at hc
    exact h2 (by simp [hc])

/-- Cleaning a clean name followed by `/` and by a rest without any `..`
element keeps the clean name as the beginning of the result. -/
theorem Clean_extends (rooted : Bool) (elems : List GoString) (rest : GoString)
    (hne : elems ≠ []) (hplain : ∀ e ∈ elems, PlainElem e) (hrest : dotdot ∉ splitSlash rest) :
    cleanName rooted elems <+: Clean (cleanName rooted elems ++ '/' :: rest) := by
  have hsplit : splitSlash (joinSlash elems ++ '/' :: rest) = elems ++ splitSlash rest := by
    rw [splitSlash_append_slash, splitSlash_joinSlash elems hne (fun e he => (hplain e he).2.1)]
  have hfold : ∀ r, ∃ v, (elems ++ splitSlash rest).foldl (cleanStep r) [] = elems ++ v := by
    intro r
    rw [List.foldl_append, foldl_cleanStep_plain r elems [] hplain, List.nil_append]
    obtain ⟨v, hv⟩ := foldl_cleanStep_extends r (splitSlash rest) elems hrest
    exact ⟨v, hv.symm⟩
  cases rooted with
  | true =>
    obtain ⟨v, hv⟩ := hfold true
    have hclean : Clean (cleanName true elems ++ '/' :: rest) = '/' :: joinSlash (elems ++ v) := by
      simp only [cleanName, if_true, List.singleton_append, List.cons_append, Clean]
      simp only [List.head?_cons, decide_True, if_true]
      rw [if_neg (by simp)]
      simp only [splitSlash, if_true, List.foldl_cons]
      have h0 : cleanStep true [] [] = [] := by simp [cleanStep]
      rw [h0, List.nil_append, hsplit, hv]
    rw [hclean]
    obtain ⟨u, hu⟩ := joinSlash_append elems v hne
    exact ⟨u, by simp [cleanName, hu]⟩
  | false =>
    obtain ⟨v, hv⟩ := hfold false
    obtain ⟨e, es, rfl⟩ := List.exists_cons_of_ne_nil hne
    have he := hplain e (List.mem_cons_self _ _)
    have hhead : (joinSlash (e :: es) ++ '/' :: rest).head? ≠ some '/' := by
      rw [joinSlash_head e es _ he.1]
      exact head_of_plain e he
    have hnil : joinSlash (e :: es) ++ '/' :: rest ≠ [] := by simp
    have hclean : Clean (cleanName false (e :: es) ++ '/' :: rest)
        = joinSlash (e :: es ++ v) := by
      simp only [cleanName, Bool.false_eq_true, if_false, List.nil_append, Clean]
      rw [if_neg hnil]
      simp only [hhead, decide_False, Bool.false_eq_true, if_false]
      rw [hsplit, hv]
      rw [if_neg (by simp)]
    rw [hclean]
    obtain ⟨u, hu⟩ := joinSlash_append (e :: es) v hne
    exact ⟨u, by simp [cleanName, hu]⟩

end Mc.Filepath

namespace Mc.Filepath

theorem joinSlash_ends_with_elem (elems : List GoString) (hne : elems ≠ []) :
    ∃ pre last, last ∈ elems ∧ joinSlash elems = pre ++ last := by
  induction elems with
  | nil => exact absurd rfl hne
  | cons e es ih =>
    cases es with
    | nil => exact ⟨[], e, by simp, by simp [joinSlash]⟩
    | cons e2 es2 =>
      obtain ⟨pre, last, hmem, hjoin⟩ := ih (by simp)
      refine ⟨e ++ '/' :: pre, last, List.mem_cons_of_mem _ hmem, ?_⟩
      simp only [joinSlash]
      rw [hjoin]
      simp

theorem cleanName_ne_nil (rooted : Bool) (elems : List GoString) (hne : elems ≠ [])
    (hplain : ∀ e ∈ elems, PlainElem e) : cleanName rooted elems ≠ [] := by
  obtain ⟨pre, last, hmem, hjoin⟩ := joinSlash_ends_with_elem elems hne
  have hlast := (hplain last hmem).1
  unfold cleanName
  rw [hjoin]
  simp [hlast]

theorem cleanName_not_slash_ended (rooted : Bool) (elems : List GoString) (hne : elems ≠ [])
    (hplain : ∀ e ∈ elems, PlainElem e) : ¬ ['/'] <:+ cleanName rooted elems := by
  obtain ⟨pre, last, hmem, hjoin⟩ := joinSlash_ends_with_elem elems hne
  obtain ⟨h1, h2, _, _⟩ := hplain last hmem
  rcases List.eq_nil_or_concat last with hnil | ⟨init, x, hx⟩
  · exact absurd hnil h1
  · intro hsuf
    obtain ⟨t, ht⟩ := (suffix_singleton_iff _ _).1 hsuf
    unfold cleanName at ht
    rw [hjoin, hx] at ht
    have h3 : ((if rooted = true then ['/'] else []) ++ pre ++ init) ++ [x] = t ++ ['/'] := by
      rw [← ht]; simp
    have h4 := List.append_inj_right' h3 rfl
    have hx2 : x = '/' := by simpa using h4
    exact h2 (by rw [hx, hx2]; simp)

end Mc.Filepath

namespace Mc

theorem TrimSuffix_keeps_start (root name : GoString) (sep : Char) (hroot : root <+: name)
    (hend : ¬ [sep] <:+ root) : root <+: TrimSuffix name [sep] := by
  by_cases hs : [sep] <:+ name
  · obtain ⟨t, rfl⟩ := (suffix_singleton_iff name sep).1 hs
    rw [TrimSuffix_concat]
    obtain ⟨u, hu⟩ := hroot
    rcases List.eq_nil_or_concat u with hnil | ⟨v, x, hv⟩
    · subst hnil
      rw [List.append_nil] at hu
      exact absurd ⟨t, hu.symm⟩ hend
    · subst hv
      have h3 : (root ++ v) ++ [x] = t ++ [sep] := by rw [← hu]; simp
      exact ⟨v, List.append_inj_left' h3 rfl⟩
  · rw [TrimSuffix_of_not_suffix name [sep] hs]
    exact hroot

end Mc

namespace Mc.Ls

theorem listElement_print_inv (p : Platform) (multipleArgs : Bool) (parentContent : Content)
    (contentCh : ContentOnChannel) (msg : ContentMessage)
    (h : listElement p multipleArgs parentContent contentCh = .print msg) :
    ∃ c, contentCh.Content = some c ∧ contentCh.Err = none ∧
      msg = parseContent p.windows (presented p multipleArgs parentContent c) := by
  obtain ⟨content, err⟩ := contentCh
  cases err with
  | some e =>
    exfalso
    unfold listElement at h
    simp only at h
    split at h
    · cases h
    · cases h
    · split at h
      · split at h
        · split at h <;> cases h
        · cases h
      · cases h
  | none =>
    cases content with
    | none => simp [listElement] at h
    | some c =>
      simp only [listElement, Verdict.print.injEq] at h
      exact ⟨c, rfl, rfl, h.symm⟩

theorem listElement_skip_inv (p : Platform) (multipleArgs : Bool) (parentContent : Content)
    (contentCh : ContentOnChannel) (err : ProbeError) (msg : GoString)
    (h : listElement p multipleArgs parentContent contentCh = .skip err msg) :
    ∃ e, contentCh.Err = some e := by
  obtain ⟨content, e⟩ := contentCh
  cases e with
  | some e => exact ⟨e, rfl⟩
  | none => cases content <;> simp [listElement] at h

/-- The messages printed by the loop are those of the entries of the stream,
in stream order, up to the point where the loop stops. -/
theorem listLoop_printed (p : Platform) (multipleArgs : Bool) (parentContent : Content)
    (stream : List ContentOnChannel) :
    (listLoop p multipleArgs parentContent stream).printed <+:
      (entries stream).map
        (fun c => parseContent p.windows (presented p multipleArgs parentContent c)) := by
  induction stream with
  | nil => exact ⟨[], rfl⟩
  | cons e es ih =>
    cases hel : listElement p multipleArgs parentContent e with
    | skip err msg =>
      obtain ⟨e2, he2⟩ := listElement_skip_inv p multipleArgs parentContent e err msg hel
      rw [entries_cons_error e es e2 he2]
      simp only [listLoop, hel]
      exact ih
    | stop err =>
      simp only [listLoop, hel]
      exact ⟨_, List.nil_append _⟩
    | print msg =>
      obtain ⟨c, hc, herr, hmsg⟩ := listElement_print_inv p multipleArgs parentContent e msg hel
      rw [entries_cons_entry e es c hc herr]
      simp only [listLoop, hel, List.map_cons]
      obtain ⟨u, hu⟩ := ih
      exact ⟨u, by rw [hmsg, List.cons_append, hu]⟩
    | nilContent =>
      simp only [listLoop, hel]
      exact ⟨_, List.nil_append _⟩

end Mc.Ls

namespace Mc.Ls

/-- On a host with `/` as separator, an entry re-rooted below a root whose
name is in clean form is presented with a name that begins with the root's
name, when the rest of the entry's name has no `..` element. -/
theorem presented_name_extends (rooted : Bool) (elems : List GoString)
    (parentContent c : Content) (hdir : parentContent.Typ.IsDir = true)
    (hne : elems ≠ []) (hplain : ∀ e ∈ elems, Filepath.PlainElem e)
    (hname : parentContent.Name = Filepath.cleanName rooted elems)
    (hrest : Filepath.dotdot ∉ Filepath.splitSlash (TrimPrefix c.Name parentContent.Name)) :
    parentContent.Name <+:
      (parseContent slashPlatform.windows (presented slashPlatform true parentContent c)).Name := by
  have hnil : parentContent.Name ≠ [] := by
    rw [hname]; exact Filepath.cleanName_ne_nil rooted elems hne hplain
  have hjoin : (presented slashPlatform true parentContent c).Name
      = Filepath.Clean (parentContent.Name ++ '/' :: TrimPrefix c.Name parentContent.Name) := by
    simp [presented, hdir, slashPlatform, Filepath.Join, hnil]
  have hext : parentContent.Name <+: (presented slashPlatform true parentContent c).Name := by
    rw [hjoin, hname]
    rw [hname] at hrest
    exact Filepath.Clean_extends rooted elems _ hne hplain hrest
  have hend : ¬ ['/'] <:+ parentContent.Name := by
    rw [hname]; exact Filepath.cleanName_not_slash_ended rooted elems hne hplain
  have htrim := TrimSuffix_keeps_start _ _ '/' hext hend
  have hw : slashPlatform.windows = false := rfl
  rw [hw]
  generalize presented slashPlatform true parentContent c = q at htrim ⊢
  by_cases hc : q.Typ.IsDir = true
  · have hn : (parseContent false q).Name = TrimSuffix q.Name ['/'] ++ ['/'] := by
      simp [parseContent, hc]
    rw [hn]
    obtain ⟨u, hu⟩ := htrim
    exact ⟨u ++ ['/'], by rw [← List.append_assoc, hu]⟩
  · have hn : (parseContent false q).Name = TrimSuffix q.Name ['/'] := by
      simp [parseContent, hc]
    rw [hn]
    exact htrim

/-- C7 (counterexample): with several arguments and the directory root
`./dir`, the entry `file` is printed as `dir/file`, which does not begin with
the root's name: `filepath.Join` cleans the joined path. -/
theorem doList_printed_name_without_root_name :
    (dirContent "./dir".toList).Typ.IsDir = true ∧
    (doList slashPlatform (dirClient "./dir".toList [fileEntry "file".toList]) false true).printed
      = [{ Filetype := "file".toList, Time := 0, Size := 5, Name := "dir/file".toList }] ∧
    ¬ ("./dir".toList <+: "dir/file".toList) := by
  decide

/-- C7 (amended): when the root's `Stat` succeeds, every message `doList`
prints is that of an entry of the stream, in stream order. With several
arguments and a directory as root, the name presented is the one
`filepath.Join` makes of the root's name and of the entry's name without the
root's name in front, that is the cleaned join; on a host with `/` as
separator it begins with the root's name when the root's name is in clean
form (plain elements joined with `/`, possibly below `/`) and the rest of the
entry's name has no `..` element. With one argument, or a root that is not a
directory, the entry's name reaches `parseContent` as it is. -/
theorem doList_presented_names (clnt : Client) (recursive multipleArgs : Bool)
    (parentContent : Content) (hstat : clnt.Stat = .ok parentContent) :
    (∀ p : Platform, (multipleArgs && parentContent.Typ.IsDir) = true →
      (doList p clnt recursive multipleArgs).printed <+:
        (entries (clnt.List recursive)).map (fun c => parseContent p.windows
          { c with Name := p.Join parentContent.Name (TrimPrefix c.Name parentContent.Name) })) ∧
    (∀ (rooted : Bool) (elems : List GoString),
      (multipleArgs && parentContent.Typ.IsDir) = true →
      elems ≠ [] → (∀ e ∈ elems, Filepath.PlainElem e) →
      parentContent.Name = Filepath.cleanName rooted elems →
      (∀ c ∈ entries (clnt.List recursive),
        Filepath.dotdot ∉ Filepath.splitSlash (TrimPrefix c.Name parentContent.Name)) →
      ∀ m ∈ (doList slashPlatform clnt recursive multipleArgs).printed,
        parentContent.Name <+: m.Name) ∧
    (∀ p : Platform, (multipleArgs && parentContent.Typ.IsDir) = false →
      (doList p clnt recursive multipleArgs).printed <+:
        (entries (clnt.List recursive)).map (parseContent p.windows)) := by
  have hprinted : ∀ p : Platform, (doList p clnt recursive multipleArgs).printed
      = (listLoop p multipleArgs parentContent (clnt.List recursive)).printed := by
    intro p
    simp only [doList, hstat]
  refine ⟨?_, ?_, ?_⟩
  · intro p hmulti
    rw [hprinted]
    have h := listLoop_printed p multipleArgs parentContent (clnt.List recursive)
    simpa only [presented, hmulti, if_true] using h
  · intro rooted elems hmulti hne hplain hname hrest m hm
    rw [hprinted] at hm
    obtain ⟨u, hu⟩ := listLoop_printed slashPlatform multipleArgs parentContent
      (clnt.List recursive)
    have hm2 : m ∈ (entries (clnt.List recursive)).map (fun c =>
        parseContent slashPlatform.windows
          (presented slashPlatform multipleArgs parentContent c)) := by
      rw [← hu]
      exact List.mem_append_left _ hm
    obtain ⟨c, hc, rfl⟩ := List.mem_map.1 hm2
    have h1 : multipleArgs = true := by
      cases multipleArgs
      · simp at hmulti
      · rfl
    have h2 : parentContent.Typ.IsDir = true := by
      rw [h1] at hmulti
      simpa using hmulti
    subst h1
    exact presented_name_extends rooted elems parentContent c h2 hne hplain hname (hrest c hc)
  · intro p hmulti
    rw [hprinted]
    have h := listLoop_printed p multipleArgs parentContent (clnt.List recursive)
    simpa only [presented, hmulti, Bool.false_eq_true, if_false] using h

/-- C7 (witness): below the directory root `dir`, the entries `dir/a` and
`b` are printed with names that begin with `dir` when there are several
arguments, and are handed to `parseContent` unchanged when there is one. -/
theorem doList_presented_names_witness :
    (∀ m ∈ (doList slashPlatform
        (dirClient "dir".toList [fileEntry "dir/a".toList, fileEntry "b".toList])
        false true).printed, "dir".toList <+: m.Name) ∧
    ((doList slashPlatform
        (dirClient "dir".toList [fileEntry "dir/a".toList, fileEntry "b".toList])
        false false).printed <+:
      (entries [fileEntry "dir/a".toList, fileEntry "b".toList]).map (parseContent false)) :=
  ⟨(doList_presented_names
      (dirClient "dir".toList [fileEntry "dir/a".toList, fileEntry "b".toList])
      false true (dirContent "dir".toList) rfl).2.1 false ["dir".toList]
      (by decide) (by decide) (by decide) rfl (by decide),
   (doList_presented_names
      (dirClient "dir".toList [fileEntry "dir/a".toList, fileEntry "b".toList])
      false false (dirContent "dir".toList) rfl).2.2 slashPlatform (by decide)⟩

end Mc.Ls

namespace Mc.Cp

/-- C11: for a non-empty list of sources and a target that is not blank, the
classifier follows the decision table: one source that is not recursive gives
type B when the target names a container and type A otherwise; one recursive
source gives type C; two or more sources give type D when all are recursive
and `Invalid` when not all are. -/
theorem guessCopyURLType_table (isURLRecursive isContainer : GoString → Bool)
    (sourceURLs : List GoString) (targetURL : GoString)
    (hne : sourceURLs ≠ []) (hblank : isBlank targetURL = false) :
    (∀ s, sourceURLs = [s] → isURLRecursive s = false → isContainer targetURL = true →
      guessCopyURLType isURLRecursive isContainer sourceURLs targetURL = .copyURLsTypeB) ∧
    (∀ s, sourceURLs = [s] → isURLRecursive s = false → isContainer targetURL = false →
      guessCopyURLType isURLRecursive isContainer sourceURLs targetURL = .copyURLsTypeA) ∧
    (∀ s, sourceURLs = [s] → isURLRecursive s = true →
      guessCopyURLType isURLRecursive isContainer sourceURLs targetURL = .copyURLsTypeC) ∧
    (2 ≤ sourceURLs.length → sourceURLs.all isURLRecursive = true →
      guessCopyURLType isURLRecursive isContainer sourceURLs targetURL = .copyURLsTypeD) ∧
    (2 ≤ sourceURLs.length → sourceURLs.all isURLRecursive = false →
      guessCopyURLType isURLRecursive isContainer sourceURLs targetURL
        = .copyURLsTypeInvalid) := by
  have hfirst : ¬ (sourceURLs = [] ∨ isBlank targetURL = true) := by
    simp [hne, hblank]
  refine ⟨?_, ?_, ?_, ?_, ?_⟩
  · intro s hs hrec hcont
    subst hs
    simp [guessCopyURLType, hblank, hrec, hcont]
  · intro s hs hrec hcont
    subst hs
    simp [guessCopyURLType, hblank, hrec, hcont]
  · intro s hs hrec
    subst hs
    simp [guessCopyURLType, hblank, hrec]
  · intro hlen hall
    unfold guessCopyURLType
    rw [if_neg hfirst, if_neg (by simp [hall])]
    match sourceURLs, hlen with
    | [], h => simp at h
    | [_], h => simp at h
    | _ :: _ :: _, _ => rfl
  · intro hlen hall
    unfold guessCopyURLType
    rw [if_neg hfirst, if_pos ⟨by omega, by simp [hall]⟩]

/-- C11 (witness): the four examples of `TestCopyURLType`, with the URL of
the test server for `u` and `...` as recursive marker. -/
theorem guessCopyURLType_table_witness :
    guessCopyURLType isURLRecursive isContainer
        [serverURL ++ "/bucket/object1".toList] (serverURL ++ "/bucket/test".toList)
      = .copyURLsTypeA ∧
    guessCopyURLType isURLRecursive isContainer
        [serverURL ++ "/bucket/object1".toList] (serverURL ++ "/bucket".toList)
      = .copyURLsTypeB ∧
    guessCopyURLType isURLRecursive isContainer
        [serverURL ++ "/bucket/...".toList] (serverURL ++ "/bucket".toList)
      = .copyURLsTypeC ∧
    guessCopyURLType isURLRecursive isContainer
        [serverURL ++ "/bucket/...".toList, serverURL ++ "/bucket/...".toList]
        (serverURL ++ "/bucket/test".toList)
      = .copyURLsTypeD :=
  ⟨(guessCopyURLType_table isURLRecursive isContainer
      [serverURL ++ "/bucket/object1".toList] (serverURL ++ "/bucket/test".toList)
      (by decide) (by decide)).2.1 _ rfl (by decide) (by decide),
   (guessCopyURLType_table isURLRecursive isContainer
      [serverURL ++ "/bucket/object1".toList] (serverURL ++ "/bucket".toList)
      (by decide) (by decide)).1 _ rfl (by decide) (by decide),
   (guessCopyURLType_table isURLRecursive isContainer
      [serverURL ++ "/bucket/...".toList] (serverURL ++ "/bucket".toList)
      (by decide) (by decide)).2.2.1 _ rfl (by decide),
   (guessCopyURLType_table isURLRecursive isContainer
      [serverURL ++ "/bucket/...".toList, serverURL ++ "/bucket/...".toList]
      (serverURL ++ "/bucket/test".toList)
      (by decide) (by decide)).2.2.2.1 (by decide) (by decide)⟩

end Mc.Cp

namespace Mc.Fs

theorem visitFS_readable (visits : List Visit) (items : List Item)
    (hperm : ∀ v ∈ visits, ∀ err, v.info = .error err → osIsPermission err = true) :
    visitFS visits items = .ok (items ++ walked visits) := by
  induction visits generalizing items with
  | nil => simp [visitFS, walked]
  | cons v vs ih =>
    have hvs : ∀ w ∈ vs, ∀ err, w.info = .error err → osIsPermission err = true :=
      fun w hw => hperm w (List.mem_cons_of_mem _ hw)
    cases hinfo : v.info with
    | error err =>
      have herr := hperm v (List.mem_cons_self _ _) err hinfo
      simp only [visitFS, hinfo, herr, if_true]
      rw [ih items hvs]
      simp [walked, List.filterMap_cons, hinfo]
    | ok fi =>
      simp only [visitFS, hinfo]
      rw [ih _ hvs]
      simp [walked, List.filterMap_cons, hinfo]

theorem GetObjectMetadata_of_dir (h : Host) (f : fsClient) (st : FileInfo)
    (hstat : h.Stat (h.Clean f.path) = .ok st) (hdir : st.IsDir = true) :
    fsClient.GetObjectMetadata h f
      = .error (iodineAgain (iodineNew (.FileISDir f.path))) := by
  simp [fsClient.GetObjectMetadata, getObjectMetadata, hstat, hdir]

/-- The three items of the example walk have three different sizes, so every
sort by size puts them in the same order. -/
theorem sort_dirWalk (sorter : Sorter) :
    sorter.sort (walked (dirWalk "dir".toList))
      = [⟨"dir/b".toList, 0, 1⟩, ⟨"dir/a".toList, 0, 10⟩, ⟨"dir".toList, 0, 4096⟩] := by
  have hp := sorter.perm (walked (dirWalk "dir".toList))
  have hs := sorter.sorted (walked (dirWalk "dir".toList))
  generalize sorter.sort (walked (dirWalk "dir".toList)) = l at hp hs ⊢
  have hw : walked (dirWalk "dir".toList)
      = [⟨"dir".toList, 0, 4096⟩, ⟨"dir/a".toList, 0, 10⟩, ⟨"dir/b".toList, 0, 1⟩] := rfl
  rw [hw] at hp
  obtain ⟨x, y, z, rfl⟩ := List.length_eq_three.1 hp.length_eq
  have hx2 := hp.subset (List.mem_cons_self x [y, z])
  have hy2 := hp.subset (List.mem_cons_of_mem x (List.mem_cons_self y [z]))
  have hz2 := hp.subset
    (List.mem_cons_of_mem x (List.mem_cons_of_mem y (List.mem_cons_self z [])))
  have hnd : [x, y, z].Nodup := hp.nodup_iff.2 (by decide)
  simp only [List.mem_cons, List.mem_singleton, List.not_mem_nil, or_false] at hx2 hy2 hz2
  rcases hx2 with rfl | rfl | rfl <;> rcases hy2 with rfl | rfl | rfl <;>
    rcases hz2 with rfl | rfl | rfl <;>
    first | rfl | exact absurd hnd (by decide) | exact absurd hs (by decide)

/-- C13 (counterexample): the directory `dir` holds the file `a` of ten bytes
and the file `b` of one byte; the walk meets `dir`, `dir/a`, `dir/b`, and
`List` returns `dir/b`, `dir/a`, `dir`, the order of the sizes, whichever way
`sort.Sort` is implemented; that order is not ascending by name. -/
theorem List_not_in_name_order :
    (∀ sorter : Sorter, fsClient.List dirHost dirWalk sorter ⟨"dir".toList⟩
      = .ok [⟨"dir/b".toList, 0, 1⟩, ⟨"dir/a".toList, 0, 10⟩, ⟨"dir".toList, 0, 4096⟩]) ∧
    ¬ NameAscending
      [⟨"dir/b".toList, 0, 1⟩, ⟨"dir/a".toList, 0, 10⟩, ⟨"dir".toList, 0, 4096⟩] := by
  refine ⟨?_, ?_⟩
  · intro sorter
    have hrun : fsClient.List dirHost dirWalk sorter ⟨"dir".toList⟩
        = .ok (sorter.sort (walked (dirWalk "dir".toList))) := rfl
    rw [hrun, sort_dirWalk sorter]
  · unfold NameAscending
    decide

/-- C13 (amended): for a path that is a directory and a walk whose only
errors are permission errors, `List` returns the items of the walk (the
directory itself and everything readable below it) rearranged by
`sort.Sort(client.BySize(items))`: a rearrangement of the walked items in
ascending order of size, whatever their names are. -/
theorem List_in_size_order (h : Host) (walk : Walk) (sorter : Sorter) (f : fsClient)
    (st : FileInfo) (hstat : h.Stat (h.Clean f.path) = .ok st) (hdir : st.IsDir = true)
    (hperm : ∀ v ∈ walk f.path, ∀ err, v.info = .error err → osIsPermission err = true) :
    ∃ items, fsClient.List h walk sorter f = .ok items ∧
      items.Perm (walked (walk f.path)) ∧ SizeAscending items := by
  refine ⟨sorter.sort (walked (walk f.path)), ?_, sorter.perm _, ?_⟩
  · unfold fsClient.List
    rw [GetObjectMetadata_of_dir h f st hstat hdir]
    simp only [visitFS_readable (walk f.path) [] hperm, List.nil_append]
  · unfold SizeAscending
    refine (sorter.sorted (walked (walk f.path))).imp ?_
    intro a b hab
    simpa [BySizeLess] using hab

/-- C13 (witness): the directory `dir` with the files `a` and `b`. -/
theorem List_in_size_order_witness :
    ∃ items, fsClient.List dirHost dirWalk insertionSorter ⟨"dir".toList⟩ = .ok items ∧
      items.Perm (walked (dirWalk "dir".toList)) ∧ SizeAscending items :=
  List_in_size_order dirHost dirWalk insertionSorter ⟨"dir".toList⟩
    { Name := "dir".toList, Size := 4096, IsDir := true, ModTime := 0 } rfl rfl
    (by
      intro v hv err herr
      simp only [dirWalk, List.mem_cons, List.mem_singleton, List.not_mem_nil, or_false] at hv
      rcases hv with rfl | rfl | rfl <;> cases herr)

/-- C14 (the code at the failing input): when `os.Stat` is refused with a
permission error it returns a nil `FileInfo`; `fsClient.Stat` passes the
not-exist test and calls `IsDir` on the nil value instead of returning an
error, while `getObjectMetadata` returns the error for the same path. In
general `fsClient.Stat` ends in the nil dereference exactly when `os.Stat`
fails with an error other than not-exist. -/
theorem Stat_dereferences_nil_FileInfo :
    fsClient.Stat deniedHost ⟨"dir".toList⟩ = .nilDereference ∧
    (getObjectMetadata deniedHost ⟨"dir".toList⟩).result
      = .error (iodineNew (.os .permission)) ∧
    (∀ (h : Host) (f : fsClient), fsClient.Stat h f = .nilDereference ↔
      ∃ err, h.Stat f.path = .error err ∧ osIsNotExist err = false) := by
  refine ⟨rfl, rfl, ?_⟩
  intro h f
  unfold fsClient.Stat
  cases hstat : h.Stat f.path with
  | error err =>
    by_cases hne : osIsNotExist err = true
    · simp [hne]
    · simp [hne]
  | ok st =>
    by_cases hd : st.IsDir = true
    · simp [hd]
    · simp [hd]

end Mc.Fs

namespace Mc.Share

/-- C12: for every run of `doShareUploadURL` that returns nil, the history
handed to `saveSharedURLsV3` is the loaded history followed by exactly one
record, which holds the issue time, the given expiry, the key and the form
fields. For a recursive share the key is the target URL followed by the
recursive separator, and the fields are those of the backend with `<FILE>`
appended to the value of `key` and every other field unchanged; otherwise the
key is the target URL and the fields are what the backend's `ShareUpload`
returned. -/
theorem doShareUploadURL_appends_record (env : Env) (targetURL : GoString) (recursive : Bool)
    (expires : Int) (contentType : GoString)
    (hsucc : (doShareUploadURL env targetURL recursive expires contentType).returned
      = .value none) :
    ∃ sURLs clnt m info key,
      env.loadSharedURLsV3 = .ok sURLs ∧
      env.url2Client targetURL = .ok clnt ∧
      clnt.ShareUpload recursive expires contentType = .ok m ∧
      (doShareUploadURL env targetURL recursive expires contentType).saved
        = some (sURLs ++
            [{ Date := env.now, Message := { Expiry := expires, UploadInfo := info, Key := key } }]) ∧
      (recursive = true →
        key = targetURL ++ env.recursiveSeparator ∧
        ∃ backend fields, m = some backend ∧ info = some fields ∧
          fields "key".toList = some ((backend "key".toList).getD [] ++ "<FILE>".toList) ∧
          ∀ k, k ≠ "key".toList → fields k = backend k) ∧
      (recursive = false → key = targetURL ∧ info = m) := by
  unfold doShareUploadURL at hsucc ⊢
  cases hload : env.loadSharedURLsV3 with
  | error err => simp [hload] at hsucc
  | ok sURLs =>
    cases hclnt : env.url2Client targetURL with
    | error err => simp [hload, hclnt] at hsucc
    | ok clnt =>
      cases hshare : clnt.ShareUpload recursive expires contentType with
      | error err => simp [hload, hclnt, hshare] at hsucc
      | ok m =>
        cases recursive with
        | false =>
          refine ⟨sURLs, clnt, m, m, targetURL, rfl, rfl, hshare, ?_, ?_, ?_⟩
          · simp [hshare]
          · intro h; cases h
          · intro _; exact ⟨rfl, rfl⟩
        | true =>
          cases m with
          | none => simp [hload, hclnt, hshare] at hsucc
          | some backend =>
            refine ⟨sURLs, clnt, some backend,
              some (Fields.set backend "key".toList
                (StringMap.get (some backend) "key".toList ++ filePlaceholder)),
              targetURL ++ env.recursiveSeparator, rfl, rfl, hshare, ?_, ?_, ?_⟩
            · simp [hshare]
            · intro _
              refine ⟨rfl, backend, _, rfl, rfl, ?_, ?_⟩
              · simp [Fields.set, StringMap.get, filePlaceholder]
              · intro k hk
                unfold Fields.set
                rw [if_neg hk]
            · intro h; cases h

/-- C12 (witness): a recursive share of `s3/backup` with one earlier record in
the history. -/
theorem doShareUploadURL_appends_record_witness :
    ∃ sURLs clnt m info key,
      formEnv.loadSharedURLsV3 = .ok sURLs ∧
      formEnv.url2Client "s3/backup".toList = .ok clnt ∧
      clnt.ShareUpload true 3600 [] = .ok m ∧
      (doShareUploadURL formEnv "s3/backup".toList true 3600 []).saved
        = some (sURLs ++
            [{ Date := formEnv.now, Message := { Expiry := 3600, UploadInfo := info, Key := key } }]) ∧
      (true = true →
        key = "s3/backup".toList ++ formEnv.recursiveSeparator ∧
        ∃ backend fields, m = some backend ∧ info = some fields ∧
          fields "key".toList = some ((backend "key".toList).getD [] ++ "<FILE>".toList) ∧
          ∀ k, k ≠ "key".toList → fields k = backend k) ∧
      (true = false → key = "s3/backup".toList ∧ info = m) :=
  doShareUploadURL_appends_record formEnv "s3/backup".toList true 3600 [] rfl

end Mc.Share
